import Mathlib

/-!
# Verification of the legal-QA chunking/retrieval pipeline

A shallow embedding, over `List Char`, of the pure text-processing core of
the repository:

* `clean_and_split.py` — text normalisation, the hierarchical legal-text
  parser (chapter / section / article / clause / point / bullet), leaf
  emission with sliding-window splitting, and identifier construction;
* `retriever.py` — the alpha-tuning heuristic, candidate construction,
  cross-encoder reranking (the scorer itself is an external model and is
  modelled as an arbitrary score assignment), and context composition;
* `generator.py` — citation deduplication and the short-circuit logic of
  `generate_answer` (the LLM call is external and modelled as an arbitrary
  fallible function).

Python strings are modelled as `List Char`; `str.strip`, `str.lower`,
regular-expression matching and `re.finditer` scanning are implemented
operationally for exactly the patterns the source uses.  Unicode NFC
normalisation (a library call) is modelled as the identity — all inputs
considered here are already NFC-composed.  Python's `\s`, `\d` and
case-mapping are modelled on the character ranges that actually occur in
the processed documents (ASCII plus the Vietnamese letters appearing in
the source's patterns).
-/

namespace LawQA

/-- Python strings, modelled as lists of unicode characters. -/
abbrev Str := List Char

/-- Python's whitespace class `\s` (as used by `str.strip()`, `str.isspace()`
and the regexes in the source), restricted to its ASCII part. -/
def isWs (c : Char) : Bool :=
  c = ' ' || c = '\t' || c = '\n' || c = '\r' || c = '\x0b' || c = '\x0c'

/-- The regex class `\d`, restricted to ASCII digits. -/
def isDigitC (c : Char) : Bool := '0' ≤ c && c ≤ '9'

/-- Python `str.strip()` with no argument: remove leading and trailing
whitespace. -/
def strip (s : Str) : Str :=
  ((s.dropWhile isWs).reverse.dropWhile isWs).reverse

/-- Python `str.lower()` on the characters relevant to this code base:
ASCII letters and the Vietnamese capital letters that occur in the
source's patterns and keywords. -/
def pyLowerChar (c : Char) : Char :=
  if 'A' ≤ c && c ≤ 'Z' then Char.ofNat (c.toNat + 32)
  else if c = 'Đ' then 'đ'
  else if c = 'Ư' then 'ư'
  else if c = 'Ơ' then 'ơ'
  else if c = 'Ề' then 'ề'
  else if c = 'Ể' then 'ể'
  else if c = 'Ụ' then 'ụ'
  else if c = 'Ả' then 'ả'
  else c

/-- Python `str.upper()` on the same character range (used by
`law_code_from_filename`). -/
def pyUpperChar (c : Char) : Char :=
  if 'a' ≤ c && c ≤ 'z' then Char.ofNat (c.toNat - 32)
  else if c = 'đ' then 'Đ'
  else if c = 'ư' then 'Ư'
  else if c = 'ơ' then 'Ơ'
  else if c = 'ề' then 'Ề'
  else if c = 'ể' then 'Ể'
  else if c = 'ụ' then 'Ụ'
  else if c = 'ả' then 'Ả'
  else c

/-- Decimal digit character for a digit value (values `≥ 10` do not occur). -/
def digitChar : ℕ → Char
  | 0 => '0' | 1 => '1' | 2 => '2' | 3 => '3' | 4 => '4'
  | 5 => '5' | 6 => '6' | 7 => '7' | 8 => '8' | _ => '9'

/-- Decimal rendering, structurally recursive on a fuel bound (the number
of digits of `n` is at most `n + 1`, so the fuel never runs out). -/
def natDigitsAux : ℕ → ℕ → Str
  | 0, _ => []
  | fuel + 1, n =>
    if n < 10 then [digitChar n]
    else natDigitsAux fuel (n / 10) ++ [digitChar (n % 10)]

/-- Decimal rendering of a natural number, as produced by Python's
`str`/f-string formatting. -/
def natDigits (n : ℕ) : Str := natDigitsAux (n + 1) n

/-- Python's rendering of an `int` in an f-string. -/
def pyIntRepr (z : ℤ) : Str :=
  if z < 0 then '-' :: natDigits (-z).toNat else natDigits z.toNat

/-- Numeric value of a digit character. -/
def digitVal (c : Char) : ℕ := c.toNat - 48

/-- Python `int()` on a string of decimal digits. -/
def decodeDigits (s : Str) : ℕ := s.foldl (fun a c => 10 * a + digitVal c) 0

/-- Python `"sep".join(parts)`. -/
def joinSep (sep : Str) (parts : List Str) : Str := List.intercalate sep parts

/-- Python truthiness-based `a or b` on strings: `b` if `a` is empty. -/
def pyOr (a b : Str) : Str := if a = [] then b else a

/-! ## retriever.py — query feature detection and alpha tuning -/

/-- The regex word class `\w` used by `\b`: ASCII alphanumerics, underscore,
and (approximating Python's Unicode semantics for the Vietnamese text at
hand) every non-ASCII character, all of which are letters in these
documents. -/
def isWordChar (c : Char) : Bool :=
  isDigitC c || ('a' ≤ c && c ≤ 'z') || ('A' ≤ c && c ≤ 'Z') || c = '_' || 127 < c.toNat

/-- Case-insensitive prefix test (the `re.IGNORECASE` flag on the two query
regexes). -/
def caselessStartsWith : Str → Str → Bool
  | [], _ => true
  | _ :: _, [] => false
  | k :: ks, c :: cs => pyLowerChar k = pyLowerChar c && caselessStartsWith ks cs

/-- The structural keywords of `LEGAL_HINT_RE`:
`\b(Chương|Mục|Điều|Khoản|Điểm)\s+[IVXLC\d]+` (IGNORECASE). -/
def legalHintKeywords : List Str :=
  ["Chương".data, "Mục".data, "Điều".data, "Khoản".data, "Điểm".data]

/-- A character of the class `[IVXLC\d]` under IGNORECASE. -/
def isLegalIndexChar (c : Char) : Bool :=
  isDigitC c || c = 'I' || c = 'V' || c = 'X' || c = 'L' || c = 'C'
    || c = 'i' || c = 'v' || c = 'x' || c = 'l' || c = 'c'

/-- Does `LEGAL_HINT_RE` (minus its leading `\b`) match at the start of `t`? -/
def legalHintAt (t : Str) : Bool :=
  legalHintKeywords.any (fun kw =>
    caselessStartsWith kw t &&
    (let u := t.drop kw.length
     let w := u.takeWhile isWs
     decide (w ≠ []) && ((u.drop w.length).headD ' ' |> isLegalIndexChar)
       && decide (u.drop w.length ≠ [])))

/-- Scan for `LEGAL_HINT_RE.search`: a position after a non-word character
(or the string start) where the body matches.  `prev` is the character
before the current position. -/
def legalHintAux (prev : Option Char) : Str → Bool
  | [] => false
  | c :: rest =>
    ((match prev with | none => true | some d => !isWordChar d) && legalHintAt (c :: rest))
      || legalHintAux (some c) rest

/-- `LEGAL_HINT_RE.search(query)` as a Boolean. -/
def legalHintSearch (s : Str) : Bool := legalHintAux none s

/-- The unit alternatives of `NUMERIC_INFO_RE`:
`\b(\d+)\s*(giờ|km/h|…|kW)\b` (IGNORECASE). -/
def numericUnits : List Str :=
  ["giờ".data, "km/h".data, "triệu".data, "nghìn".data, "đồng".data, "lần".data,
   "ngày".data, "tháng".data, "năm".data, "%".data, "phần trăm".data, "cm3".data,
   "cc".data, "tấn".data, "km".data, "m".data, "kW".data]

/-- Does `NUMERIC_INFO_RE` (minus its leading `\b`) match at the start of
`t`?  The trailing `\b` requires the character after the unit to differ in
word-ness from the unit's last character. -/
def numericAt (t : Str) : Bool :=
  let d := t.takeWhile isDigitC
  decide (d ≠ []) &&
  (let u := t.drop d.length
   let w := u.takeWhile isWs
   let v := u.drop w.length
   numericUnits.any (fun unit =>
     caselessStartsWith unit v &&
     (let lastC := v.getD (unit.length - 1) ' '
      let nextWord := match (v.drop unit.length).head? with
        | none => false
        | some c => isWordChar c
      isWordChar lastC != nextWord)))

/-- Scan for `NUMERIC_INFO_RE.search` (leading `\b`: previous character is
non-word or absent; digits are word characters). -/
def numericAux (prev : Option Char) : Str → Bool
  | [] => false
  | c :: rest =>
    ((match prev with | none => true | some d => !isWordChar d) && numericAt (c :: rest))
      || numericAux (some c) rest

/-- `NUMERIC_INFO_RE.search(query)` as a Boolean. -/
def numericSearch (s : Str) : Bool := numericAux none s

/-- `tune_alpha_and_pool` from retriever.py: pick the hybrid-search blend
weight and the candidate pool size from the query's surface features.
Floats are modelled as rationals. -/
def tune_alpha_and_pool (query : Str) (base_alpha : ℚ := 0.55) (k : ℤ := 5) : ℚ × ℤ :=
  if legalHintSearch query then
    (max 0.30 (base_alpha - 0.25), max 15 (k * 6))
  else if numericSearch query then
    (max 0.40 (base_alpha - 0.15), max 12 (k * 5))
  else
    (min 0.75 (base_alpha + 0.20), max 10 (k * 4))

/-! ## generator.py — citation deduplication -/

/-- Single pass of `re.sub(r"\s+", " ", s)`: `prevWs` records whether the
previous character was whitespace (in which case further whitespace is
absorbed into the same run). -/
def collapseWsAux (prevWs : Bool) : Str → Str
  | [] => []
  | c :: t =>
    if isWs c then
      (if prevWs then collapseWsAux true t else ' ' :: collapseWsAux true t)
    else c :: collapseWsAux false t

/-- `re.sub(r"\s+", " ", s)`: collapse every whitespace run to one space. -/
def collapseWs (s : Str) : Str := collapseWsAux false s

/-- The deduplication key of `_dedupe_sources`:
`re.sub(r"\s+", " ", s.strip().lower())`. -/
def normKey (s : Str) : Str := collapseWs ((strip s).map pyLowerChar)

/-- The loop of `_dedupe_sources`, with the `seen` set of keys made
explicit. -/
def dedupeAux (seen : List Str) : List Str → List Str
  | [] => []
  | s :: rest =>
    let key := normKey s
    if key ≠ [] ∧ key ∉ seen then s :: dedupeAux (key :: seen) rest
    else dedupeAux seen rest

/-- `_dedupe_sources` from generator.py: drop citations whose normalised
key was already seen (or is empty), keeping first occurrences. -/
def dedupe_sources (l : List Str) : List Str := dedupeAux [] l

/-- Reference rendering of the deduplication contract in the spec's own
words: retain exactly the first occurrence of each normalised key, in the
order those first occurrences appear in the input, each with its original
(un-normalised) spelling; entries whose key is empty are not retained
(`if key and key not in seen`).  To be compared with `dedupe_sources`. -/
def firstSeenDedupe : List Str → List Str
  | [] => []
  | s :: rest =>
    if normKey s = [] then firstSeenDedupe rest
    else s :: firstSeenDedupe (rest.filter (fun t => normKey t ≠ normKey s))
termination_by l => l.length
decreasing_by
  · simp only [List.length_cons]
    omega
  · simp only [List.length_cons]
    exact Nat.lt_succ_of_le (List.length_filter_le _ _)

/-! ## generator.py — `generate_answer` -/

/-- The fixed "insufficient information" answer returned when the retrieved
context is empty or too short. -/
def insufficientAnswer : Str :=
  "Trong các trích dẫn luật được cung cấp, không có đủ thông tin để trả lời chính xác câu hỏi này.".data

/-- The fallback answer substituted when the model returns empty text. -/
def emptyRespAnswer : Str :=
  "Không tìm thấy đủ thông tin trong các văn bản luật đã được lập chỉ mục để trả lời câu hỏi này.".data

/-- The error string substituted when the model call raises. -/
def geminiErrAnswer (e : Str) : Str := "Lỗi khi gọi Gemini API: ".data ++ e

/-- `_truncate_context` from generator.py. -/
def truncate_context (ctx : Str) (max_chars : ℕ := 20000) : Str :=
  if ctx.length ≤ max_chars then ctx
  else ctx.take max_chars ++ "\n… (đã cắt ngắn context do quá dài)".data

/-- `generate_answer` from generator.py.  The retriever it calls is imported
from `retriever_custom` (not part of this repository snapshot), so it is
modelled by its result `retrieved = (context, sources)`; the Gemini call is
external and is modelled by an arbitrary fallible function `llm` taking the
built prompt's two interpolated fields `(question, truncated context)`. -/
def generate_answer (question : Str) (retrieved : Str × List Str)
    (llm : Str × Str → Except Str Str) : Str × List Str :=
  let context := retrieved.1
  let sources := retrieved.2
  if strip context = [] ∨ context.length < 300 then
    (insufficientAnswer, [])
  else
    let truncated := truncate_context context
    let sources := dedupe_sources sources
    let prompt := (strip question, strip truncated)
    let text :=
      match llm prompt with
      | .ok t => let t' := strip t; if t' = [] then emptyRespAnswer else t'
      | .error e => geminiErrAnswer e
    (text, sources)

/-! ## retriever.py — candidates, reranking, composition

The Weaviate store and the cross-encoder are external services: the hybrid
search's response is modelled as a list of property records, and the
reranker as an arbitrary assignment of scores to candidate indices. -/

/-- The properties requested from the store by `retrieve` (the store field
`section` is a Lean keyword and is named `sectionLabel` here).  Missing
properties are the empty string, matching `p.get(...) or ""`. -/
structure Props where
  law : Str := []
  law_code : Str := []
  chapter : Str := []
  sectionLabel : Str := []
  article_no : Str := []
  article_title : Str := []
  clause_no : Str := []
  point : Str := []
  bullet_idx : Str := []
  granularity : Str := []
  header : Str := []
  display_citation : Str := []
  path_text : Str := []
  clause_head : Str := []
  text : Str := []
  rerank_title : Str := []
  rerank_body : Str := []
  source_file : Str := []
deriving DecidableEq, Repr

/-- A retrieval candidate: the text span offered to the reranker plus the
stored properties. -/
structure Cand where
  rerank_text : Str
  props : Props
deriving DecidableEq, Repr

/-- The candidate-building loop of `retrieve`: title and body are stripped,
an empty body falls back to the raw chunk text, and candidates whose
combined span is empty are skipped. -/
def buildCandidates (objs : List Props) : List Cand :=
  objs.filterMap (fun p =>
    let rr_title := strip p.rerank_title
    let rr_body0 := strip p.rerank_body
    let rr_body := if rr_body0 = [] then strip p.text else rr_body0
    let rerank_text := strip (rr_title ++ '\n' :: rr_body)
    if rerank_text = [] then none else some ⟨rerank_text, p⟩)

/-- A candidate together with its original retrieval position and its
cross-encoder score. -/
structure Scored where
  idx : ℕ
  cand : Cand
  score : ℚ
deriving DecidableEq, Repr

/-- Attach positions and scores, mirroring `scores = reranker.predict(pairs)`
followed by `c["rerank_score"] = float(scores[i])`. -/
def scoreCands (cands : List Cand) (score : ℕ → ℚ) : List Scored :=
  cands.enum.map (fun p => ⟨p.1, p.2, score p.1⟩)

/-- The comparison used by
`sorted(candidates, key=lambda x: x["rerank_score"], reverse=True)`:
Python's sort is stable, so this is a stable merge sort under the
descending-score comparison. -/
def descLE (a b : Scored) : Bool := decide (b.score ≤ a.score)

/-- `topk = sorted(candidates, key=..., reverse=True)[:k]`. -/
def rerank_topk (cands : List Cand) (score : ℕ → ℚ) (k : ℕ) : List Scored :=
  ((scoreCands cands score).mergeSort descLE).take k

/-- A singleton line when the string is truthy (nonempty), else nothing —
the `if x: lines.append(x)` idiom of step 5 of `retrieve`. -/
def optLine (s : Str) : List Str := if s = [] then [] else [s]

/-- The article heading line of the composed context:
`f"Điều {article_no}".strip()` plus an optional `". {article_title}"`. -/
def articleLine (article_no article_title : Str) : List Str :=
  if article_no = [] ∧ article_title = [] then []
  else [strip ("Điều ".data ++ article_no) ++
        (if article_title = [] then [] else ". ".data ++ article_title)]

/-- The clause heading line(s) used when the leaf is a point. -/
def clauseHeadLine (clause_no clause_head : Str) : List Str :=
  if clause_no = [] then []
  else if clause_head = [] then ["Khoản ".data ++ clause_no]
  else ["Khoản ".data ++ clause_no ++ ". ".data ++ clause_head]

/-- One candidate's rendering in the composed context (step 5 of
`retrieve`). -/
def composeChunk (c : Scored) : Str :=
  let p := c.cand.props
  let law := strip p.law
  let chapter := strip p.chapter
  let sectionText := strip p.sectionLabel
  let article_no := strip p.article_no
  let article_title := strip p.article_title
  let clause_no := p.clause_no
  let clause_head := strip p.clause_head
  let point := strip p.point
  let body_for_ctx := strip p.text
  let lines : List Str :=
    optLine law ++ optLine chapter ++ optLine sectionText ++
    articleLine article_no article_title ++
    (if point = [] then
      (if clause_no = [] then [] else ["Khoản ".data ++ clause_no]) ++
        optLine body_for_ctx
     else
      clauseHeadLine clause_no clause_head ++
        ["Điểm ".data ++ point ++ ")".data] ++ optLine body_for_ctx)
  strip (joinSep "\n".data lines)

/-- One candidate's entry in the sources list. -/
def composeSource (c : Scored) : Str :=
  let p := c.cand.props
  let law := strip p.law
  let src := pyOr p.display_citation (pyOr p.header [])
  if law ≠ [] ∧ src ≠ [] then law ++ " – ".data ++ src else pyOr src law

/-- `retrieve` from retriever.py, downstream of the hybrid search: build
candidates from the response objects, return `("", [])` if none survive,
otherwise rerank (with the external scorer `score`), keep the top `k`, and
compose the context string and sources list. -/
def retrieve (objs : List Props) (score : ℕ → ℚ) (k : ℕ) : Str × List Str :=
  let candidates := buildCandidates objs
  if candidates = [] then ([], [])
  else
    let topk := rerank_topk candidates score k
    let contexts := (topk.map composeChunk).filter (· ≠ [])
    let sources := topk.map composeSource
    (joinSep "\n\n".data contexts, sources)

/-! ## clean_and_split.py — tokenisation and sliding windows -/

/-- Collect the maximal runs of characters of equal whitespace-class:
`cur` is the (reversed) run being built, `b` its class. -/
def runsAux (cur : Str) (b : Bool) : Str → List Str
  | [] => [cur.reverse]
  | c :: t =>
    if isWs c = b then runsAux (c :: cur) b t
    else cur.reverse :: runsAux [c] (isWs c) t

/-- `re.findall(r'\S+|\s+', text)`: the maximal runs of non-whitespace and
of whitespace characters, in order. -/
def tokensOf : Str → List Str
  | [] => []
  | c :: t => runsAux [c] (isWs c) t

/-- Python `t.isspace()`: nonempty and all whitespace. -/
def pyIsSpace (t : Str) : Bool := !t.isEmpty && t.all isWs

/-- `words = [i for i, t in enumerate(toks) if not t.isspace()]`. -/
def wordIndices (toks : List Str) : List ℕ :=
  (toks.enum.filter (fun p => !pyIsSpace p.2)).map Prod.fst

/-- `token_count` from clean_and_split.py:
`len(re.findall(r'\S+', text))`, the number of non-whitespace runs. -/
def token_count (text : Str) : ℕ :=
  ((tokensOf text).filter (fun t => !pyIsSpace t)).length

/-- The window loop of `sliding_windows_by_tokens` at the level of word
indices: from `i`, emit the span `[i, min (i+win) N)`; stop when the span
reaches `N`, else advance by `step` (the loop's
`step = max(1, win_tokens - overlap_tokens)` is positive, which bounds the
recursion). -/
def windowSpansAux (N win ov : ℕ) (i : ℕ) : List (ℕ × ℕ) :=
  if _h : i < N then
    (i, min (i + win) N) ::
      (if N ≤ i + win then [] else windowSpansAux N win ov (i + max 1 (win - ov)))
  else []
  termination_by N - i
  decreasing_by omega

/-- The word-index spans of the windows emitted for a word count `N`. -/
def windowSpans (N win ov : ℕ) : List (ℕ × ℕ) := windowSpansAux N win ov 0

/-- `sliding_windows_by_tokens` from clean_and_split.py: if there are no
words, return the stripped text (or nothing); otherwise render each window
span by joining the token/whitespace-interleaved slice from the span's
first word to its last word, stripping, and dropping empty chunks. -/
def sliding_windows_by_tokens (text : Str) (win ov : ℕ) : List Str :=
  let toks := tokensOf text
  let words := wordIndices toks
  if words = [] then (if strip text = [] then [] else [strip text])
  else
    (windowSpans words.length win ov).filterMap (fun s =>
      let startTok := words.getD s.1 0
      let endTok := words.getD (s.2 - 1) 0 + 1
      let chunk := strip ((toks.drop startTok).take (endTok - startTok)).flatten
      if chunk = [] then none else some chunk)

/-- A concrete text of 1201 whitespace-delimited tokens, above the leaf
threshold of 1200. -/
def wideText : Str := (List.replicate 1200 ['a', ' ']).flatten ++ ['a']

/-! ## clean_and_split.py — regex scanning -/

/-- `t[a:b]` for `0 ≤ a ≤ b`. -/
def sliceStr (t : Str) (a b : ℕ) : Str := (t.drop a).take (b - a)

/-- Pair each match (position, payload) with the start of the next match,
the last with `len` — the `ms[i+1].start() if i+1 < len(ms) else len(...)`
idiom used by every splitter. -/
def withEnds : List (ℕ × β) → ℕ → List (ℕ × ℕ × β)
  | [], _ => []
  | [(s, v)], len => [(s, len, v)]
  | (s, v) :: (s', v') :: r, len => (s, s', v) :: withEnds ((s', v') :: r) len

/-- `re.finditer` for a `^`-anchored MULTILINE pattern: scan left to right,
attempt the matcher only at line starts (`atLS`), and skip the remainder of
a successful match (`skip`), making matches non-overlapping.  `p` is the
current position in the original string. -/
def finditerAux (matchAt : Str → Option (β × ℕ)) : ℕ → Bool → ℕ → Str → List (ℕ × β)
  | _, _, _, [] => []
  | p, atLS, skip, c :: t =>
    if skip = 0 then
      if atLS then
        match matchAt (c :: t) with
        | some (v, len) => (p, v) :: finditerAux matchAt (p + 1) (c = '\n') (len - 1) t
        | none => finditerAux matchAt (p + 1) (c = '\n') 0 t
      else c = '\n' |> fun b => finditerAux matchAt (p + 1) b 0 t
    else finditerAux matchAt (p + 1) (c = '\n') (skip - 1) t

/-- All (position, payload) matches of a `^`-anchored MULTILINE pattern. -/
def finditer (matchAt : Str → Option (β × ℕ)) (s : Str) : List (ℕ × β) :=
  finditerAux matchAt 0 true 0 s

/-- `RE_CLAUSE = ^(\d+)\.\s+` at the start of `t`: digits, a period, at
least one whitespace character (greedy); yields `int(group(1))` and the
match length. -/
def clauseMatchAt (t : Str) : Option (ℕ × ℕ) :=
  let d := t.takeWhile isDigitC
  if d = [] then none
  else
    match t.drop d.length with
    | '.' :: u =>
      let w := u.takeWhile isWs
      if w = [] then none else some (decodeDigits d, d.length + 1 + w.length)
    | _ => none

/-- The letter class `[a-zA-ZđĐ]` of `RE_POINT`. -/
def isPointLetter (c : Char) : Bool :=
  ('a' ≤ c && c ≤ 'z') || ('A' ≤ c && c ≤ 'Z') || c = 'đ' || c = 'Đ'

/-- `RE_POINT = ^\s*([a-zA-ZđĐ])\)\s+` at the start of `t`; yields the raw
letter and the match length. -/
def pointMatchAt (t : Str) : Option (Char × ℕ) :=
  let w1 := t.takeWhile isWs
  match t.drop w1.length with
  | c :: ')' :: u =>
    if isPointLetter c then
      let w2 := u.takeWhile isWs
      if w2 = [] then none else some (c, w1.length + 2 + w2.length)
    else none
  | _ => none

/-- `RE_BULLET = ^\s*[-•]\s+` at the start of `t`; yields the match length. -/
def bulletMatchAt (t : Str) : Option (Unit × ℕ) :=
  let w1 := t.takeWhile isWs
  match t.drop w1.length with
  | c :: u =>
    if c = '-' || c = '•' then
      let w2 := u.takeWhile isWs
      if w2 = [] then none else some ((), w1.length + 1 + w2.length)
    else none
  | [] => none

/-- `re.sub(r'^\d+\.\s+', '', s, count=1)`: drop the leading clause label. -/
def dropClauseLabel (s : Str) : Str :=
  match clauseMatchAt s with
  | some (_, len) => s.drop len
  | none => s

/-- `re.sub(r'^\s*[a-zA-ZđĐ]\)\s+', '', s)` (anchored, so at most one
occurrence): drop the leading point marker. -/
def dropPointMarker (s : Str) : Str :=
  match pointMatchAt s with
  | some (_, len) => s.drop len
  | none => s

/-- `re.sub(r'^\s*[-•]\s+', '', s)`: drop the leading bullet marker. -/
def dropBulletMarker (s : Str) : Str :=
  match bulletMatchAt s with
  | some (_, len) => s.drop len
  | none => s

/-! ## clean_and_split.py — splitters -/

/-- `split_clauses` from clean_and_split.py: the unnumbered preamble (when
nonempty) followed by the numbered clause segments, each stripped. -/
def split_clauses (article_text : Str) : List (Option ℤ × Str) :=
  let ms := finditer clauseMatchAt article_text
  match ms with
  | [] => [(none, strip article_text)]
  | (s0, _) :: _ =>
    (let pre := strip (article_text.take s0)
     if 0 < s0 ∧ pre ≠ [] then [(none, pre)] else []) ++
    (withEnds ms article_text.length).map
      (fun seg => (some (seg.2.2 : ℤ), strip (sliceStr article_text seg.1 seg.2.1)))

/-- `split_points` from clean_and_split.py: drop the clause label, strip,
split at the point markers (text before the first marker is not kept),
strip each segment and remove its own marker; letters are lowercased. -/
def split_points (clause_text : Str) : List (Char × Str) :=
  let t := strip (dropClauseLabel clause_text)
  (withEnds (finditer pointMatchAt t) t.length).map
    (fun seg => (pyLowerChar seg.2.2, dropPointMarker (strip (sliceStr t seg.1 seg.2.1))))

/-- `split_bullets` from clean_and_split.py. -/
def split_bullets (text : Str) : List Str :=
  (withEnds (finditer bulletMatchAt text) text.length).map
    (fun seg => dropBulletMarker (strip (sliceStr text seg.1 seg.2.1)))

/-! ## clean_and_split.py — filenames, labels -/

/-- The final path component (after the last `/`). -/
def basename (p : Str) : Str := (p.reverse.takeWhile (· ≠ '/')).reverse

/-- `pathlib.Path(p).stem`: the final component without its last suffix. -/
def pathStem (p : Str) : Str :=
  let name := basename p
  let ext := name.reverse.takeWhile (· ≠ '.')
  if ext.length + 1 < name.length ∧ ext ≠ [] then
    name.take (name.length - ext.length - 1)
  else name

/-- `re.search(r'(\d{1,4}-\d{4})', ·)` at the start of `t`: the first group
is greedy, so it must be the whole digit run (of length ≤ 4), then a dash
and four digits. -/
def ndCodeAt (t : Str) : Option Str :=
  let d := t.takeWhile isDigitC
  if d = [] ∨ 4 < d.length then none
  else
    match t.drop d.length with
    | '-' :: u =>
      let d2 := u.take 4
      if d2.length = 4 ∧ d2.all isDigitC then some (d ++ '-' :: d2) else none
    | _ => none

/-- Leftmost occurrence for `re.search(r'(\d{1,4}-\d{4})', ·)`. -/
def ndCodeSearch : Str → Option Str
  | [] => none
  | c :: t =>
    match ndCodeAt (c :: t) with
    | some r => some r
    | none => ndCodeSearch t

/-- `law_code_from_filename` from clean_and_split.py. -/
def law_code_from_filename (source_file : Str) : Str :=
  let stem := pathStem source_file
  match ndCodeSearch stem with
  | some code => 'N' :: 'D' :: code
  | none => (stem.map pyUpperChar).filter (· ≠ '-')

/-- `build_path` from clean_and_split.py. -/
def build_path (chapter sectionLabel article_no : Str)
    (clause_no : Option ℤ) (point_letter : Option Char) (bullet_idx : Option ℕ) : Str :=
  joinSep " > ".data
    ((if chapter = [] then [] else [chapter]) ++
     (if sectionLabel = [] then [] else [sectionLabel]) ++
     (if article_no = [] then [] else ["Điều ".data ++ article_no]) ++
     (match clause_no with | some n => ["Khoản ".data ++ pyIntRepr n] | none => []) ++
     (match point_letter with | some c => ["Điểm ".data ++ [c]] | none => []) ++
     (match bullet_idx with | some i => ["Gạch ".data ++ natDigits i] | none => []))

/-- `header_of` from clean_and_split.py. -/
def header_of (article_no : Str) (clause_no : Option ℤ) (point_letter : Option Char)
    (bullet_idx : Option ℕ) : Str :=
  joinSep " ".data
    ((match bullet_idx with | some i => ["Gạch ".data ++ natDigits i] | none => []) ++
     (match point_letter with | some c => ["Điểm ".data ++ [c]] | none => []) ++
     (match clause_no with | some n => ["Khoản ".data ++ pyIntRepr n] | none => []) ++
     ["Điều ".data ++ article_no])

/-- `citation_of` from clean_and_split.py. -/
def citation_of (law article_no : Str) (clause_no : Option ℤ)
    (point_letter : Option Char) (bullet_idx : Option ℕ) : Str :=
  joinSep " ".data
    ((match bullet_idx with | some i => ["gạch ".data ++ natDigits i] | none => []) ++
     (match point_letter with | some c => ["điểm ".data ++ [c]] | none => []) ++
     (match clause_no with | some n => ["khoản ".data ++ pyIntRepr n] | none => []) ++
     ["Điều ".data ++ article_no ++ " ".data ++ law])

/-! ## clean_and_split.py — items and leaf emission -/

/-- An emitted node/chunk record (the JSON dict built by `process_one` /
`emit_leaf`; the `section` key is a Lean keyword and is named
`sectionLabel`; keys absent from a given dict take their `none`/`[]`
defaults). -/
structure Item where
  id : Str
  granularity : Str
  law : Str
  law_code : Str
  chapter : Str
  sectionLabel : Str
  article_no : Str
  article_title : Str
  clause_no : Option ℤ := none
  point : Option Char := none
  bullet_idx : Option ℕ := none
  header : Str := []
  display_citation : Str := []
  path : Str
  parents : List (Str × Str)
  text : Str
  embed_text : Str
  source_file : Str
  window_seq : Option ℕ := none
deriving DecidableEq, Repr

/-- `emit_leaf` from clean_and_split.py: one `leaf` chunk when the text is
at or below the token threshold, else one `leaf_window` chunk per sliding
window, with `_w{i}` appended to the identifier. -/
def emit_leaf (law source_file chapter sectionLabel article_no article_title : Str)
    (clause_no : Option ℤ) (point_letter : Option Char) (bullet_idx : Option ℕ)
    (text : Str) (parents_ids : List (Str × Str)) : List Item :=
  let law_code := law_code_from_filename source_file
  let base_id := pathStem source_file ++ "_D".data ++ article_no ++
    (match clause_no with | some n => "_K".data ++ pyIntRepr n | none => []) ++
    (match point_letter with | some c => '_' :: [c] | none => []) ++
    (match bullet_idx with | some i => "_b".data ++ natDigits i | none => [])
  let header := header_of article_no clause_no point_letter bullet_idx
  let display_citation := citation_of law article_no clause_no point_letter bullet_idx
  let path := build_path chapter sectionLabel article_no clause_no point_letter bullet_idx
  if 1200 < token_count text then
    (sliding_windows_by_tokens text 800 200).enum.map (fun p =>
      { id := base_id ++ "_w".data ++ natDigits (p.1 + 1),
        granularity := "leaf_window".data,
        law := law, law_code := law_code, chapter := chapter,
        sectionLabel := sectionLabel, article_no := article_no,
        article_title := article_title, clause_no := clause_no,
        point := point_letter, bullet_idx := bullet_idx,
        header := header, display_citation := display_citation, path := path,
        parents := parents_ids, text := p.2, embed_text := p.2,
        source_file := basename source_file, window_seq := some (p.1 + 1) })
  else
    [{ id := base_id, granularity := "leaf".data,
       law := law, law_code := law_code, chapter := chapter,
       sectionLabel := sectionLabel, article_no := article_no,
       article_title := article_title, clause_no := clause_no,
       point := point_letter, bullet_idx := bullet_idx,
       header := header, display_citation := display_citation, path := path,
       parents := parents_ids, text := strip text, embed_text := strip text,
       source_file := basename source_file }]

/-! ## clean_and_split.py — article parsing -/

/-- The roman-numeral class `[IVXLC]` of `RE_CHAPTER`. -/
def isRoman (c : Char) : Bool := c = 'I' || c = 'V' || c = 'X' || c = 'L' || c = 'C'

/-- `RE_CHAPTER = ^(Chương\s+[IVXLC]+)\.?\s*(.*)$` at the start of `t`:
yields `(group(1), group(2))` and the match length (all runs greedy; the
final `(.*)$` stops at the next newline). -/
def chapterMatchAt (t : Str) : Option ((Str × Str) × ℕ) :=
  match t with
  | 'C' :: 'h' :: 'ư' :: 'ơ' :: 'n' :: 'g' :: rest =>
    let w := rest.takeWhile isWs
    if w = [] then none
    else
      let r := (rest.drop w.length).takeWhile isRoman
      if r = [] then none
      else
        let u := (rest.drop w.length).drop r.length
        let dDot : ℕ := if u.head? = some '.' then 1 else 0
        let u1 := u.drop dDot
        let w2 := u1.takeWhile isWs
        let g2 := (u1.drop w2.length).takeWhile (· ≠ '\n')
        some (("Chương".data ++ w ++ r, g2),
          6 + w.length + r.length + dDot + w2.length + g2.length)
  | _ => none

/-- `RE_SECTION = ^(Mục\s+\d+)\.?\s*(.*)$` at the start of `t`. -/
def sectionMatchAt (t : Str) : Option ((Str × Str) × ℕ) :=
  match t with
  | 'M' :: 'ụ' :: 'c' :: rest =>
    let w := rest.takeWhile isWs
    if w = [] then none
    else
      let d := (rest.drop w.length).takeWhile isDigitC
      if d = [] then none
      else
        let u := (rest.drop w.length).drop d.length
        let dDot : ℕ := if u.head? = some '.' then 1 else 0
        let u1 := u.drop dDot
        let w2 := u1.takeWhile isWs
        let g2 := (u1.drop w2.length).takeWhile (· ≠ '\n')
        some (("Mục".data ++ w ++ d, g2),
          3 + w.length + d.length + dDot + w2.length + g2.length)
  | _ => none

/-- `RE_ARTICLE = ^Điều\s+(\d+)\.?\s*(.*)$` at the start of `t`: yields the
article number string and the title. -/
def articleMatchAt (t : Str) : Option ((Str × Str) × ℕ) :=
  match t with
  | 'Đ' :: 'i' :: 'ề' :: 'u' :: rest =>
    let w := rest.takeWhile isWs
    if w = [] then none
    else
      let d := (rest.drop w.length).takeWhile isDigitC
      if d = [] then none
      else
        let u := (rest.drop w.length).drop d.length
        let dDot : ℕ := if u.head? = some '.' then 1 else 0
        let u1 := u.drop dDot
        let w2 := u1.takeWhile isWs
        let g2 := (u1.drop w2.length).takeWhile (· ≠ '\n')
        some ((d, g2), 4 + w.length + d.length + dDot + w2.length + g2.length)
  | _ => none

/-- `find_blocks` from clean_and_split.py: spans delimited by consecutive
matches, or the whole text with no match payload. -/
def find_blocks (matchAt : Str → Option (β × ℕ)) (t : Str) : List (ℕ × ℕ × Option β) :=
  match finditer matchAt t with
  | [] => [(0, t.length, none)]
  | ms => (withEnds ms t.length).map (fun seg => (seg.1, seg.2.1, some seg.2.2))

/-- A parsed article (`yield dict(...)` of `parse_articles`). -/
structure Article where
  chapter : Str
  sectionLabel : Str
  article_no : Str
  article_title : Str
  article_text : Str
deriving DecidableEq, Repr

/-- `m.group(1) + (". " + m.group(2) if m.group(2) else "")` when there is a
match, else `""` — the chapter/section labels of `parse_articles`. -/
def blockLabel : Option (Str × Str) → Str
  | none => []
  | some (g1, g2) => g1 ++ (if g2 = [] then [] else ". ".data ++ g2)

/-- `parse_articles` from clean_and_split.py: cut the document at the first
chapter heading, then walk chapter blocks, section blocks within them, and
articles within those; an article's body is everything after the first
newline of its block, stripped. -/
def parse_articles (doc_text : Str) : List Article :=
  let doc := match (finditer chapterMatchAt doc_text).head? with
    | some (p, _) => doc_text.drop p
    | none => doc_text
  (find_blocks chapterMatchAt doc).flatMap (fun chBlock =>
    let ch_text := sliceStr doc chBlock.1 chBlock.2.1
    let chapter := blockLabel chBlock.2.2
    (find_blocks sectionMatchAt ch_text).flatMap (fun seBlock =>
      let se_text := sliceStr ch_text seBlock.1 seBlock.2.1
      let sectionLabel := blockLabel seBlock.2.2
      (withEnds (finditer articleMatchAt se_text) se_text.length).map (fun seg =>
        let block := strip (sliceStr se_text seg.1 seg.2.1)
        { chapter := chapter, sectionLabel := sectionLabel,
          article_no := strip seg.2.2.1,
          article_title := strip seg.2.2.2,
          article_text :=
            match block.findIdx? (· = '\n') with
            | some i => strip (block.drop (i + 1))
            | none => [] })))

/-! ## clean_and_split.py — normalisation -/

/-- `.replace("\r\n", "\n")`. -/
def replaceCrLf : Str → Str
  | '\r' :: '\n' :: t => '\n' :: replaceCrLf t
  | c :: t => c :: replaceCrLf t
  | [] => []

/-- The class `[ \t\f\v]` of the horizontal-whitespace collapse. -/
def isHWs (c : Char) : Bool := c = ' ' || c = '\t' || c = '\x0c' || c = '\x0b'

/-- Single pass of `re.sub(r'[ \t\f\v]+', ' ', s)`. -/
def collapseHWsAux (prev : Bool) : Str → Str
  | [] => []
  | c :: t =>
    if isHWs c then
      (if prev then collapseHWsAux true t else ' ' :: collapseHWsAux true t)
    else c :: collapseHWsAux false t

/-- `re.sub(r'\s*\n\s*', '\n', s)`: each maximal whitespace run containing a
newline becomes a single newline; `pending` is the reversed run collected
so far. -/
def squeezeNlAux (pending : Str) : Str → Str
  | [] => if pending.contains '\n' then ['\n'] else pending.reverse
  | c :: t =>
    if isWs c then squeezeNlAux (c :: pending) t
    else
      (if pending.contains '\n' then ['\n'] else pending.reverse) ++
        c :: squeezeNlAux [] t

/-- `re.sub(r'\n{3,}', '\n\n', s)`: cap every newline run at two. -/
def squeezeNl3Aux (count : ℕ) : Str → Str
  | [] => List.replicate (min count 2) '\n'
  | c :: t =>
    if c = '\n' then squeezeNl3Aux (count + 1) t
    else List.replicate (min count 2) '\n' ++ c :: squeezeNl3Aux 0 t

/-- The backtracking search for `(\s+)([^\.\n]*)$` after `Điều\s+\d+`: try
the group-2 whitespace length from the maximal run downward; group 3 is the
longest period-free newline-free stretch, and `$` must follow it. -/
def fixupSearch (u : Str) : ℕ → Option (ℕ × Str)
  | 0 => none
  | k + 1 =>
    let v := u.drop (k + 1)
    let g := v.takeWhile (fun c => !(c = '.' || c = '\n'))
    if v.drop g.length = [] ∨ (v.drop g.length).head? = some '\n' then some (k + 1, g)
    else fixupSearch u k

/-- `^(Điều\s+\d+)(\s+)([^\.\n]*)$` at the start of `s`: the replacement
`\1. \3` and the number of consumed characters. -/
def headingFixAt (s : Str) : Option (Str × ℕ) :=
  match s with
  | 'Đ' :: 'i' :: 'ề' :: 'u' :: t =>
    let w1 := t.takeWhile isWs
    if w1 = [] then none
    else
      let t1 := t.drop w1.length
      let d := t1.takeWhile isDigitC
      if d = [] then none
      else
        let u := t1.drop d.length
        match fixupSearch u (u.takeWhile isWs).length with
        | some (k, g) =>
          some ("Điều".data ++ w1 ++ d ++ '.' :: ' ' :: g,
            4 + w1.length + d.length + k + g.length)
        | none => none
  | _ => none

/-- Apply the heading substitution at every line start
(`re.sub(..., flags=re.MULTILINE)`), resuming after each match end. -/
def headingFixAux (skip : ℕ) (atLS : Bool) : Str → Str
  | [] => []
  | c :: t =>
    if skip = 0 then
      if atLS then
        match headingFixAt (c :: t) with
        | some (rep, len) => rep ++ headingFixAux (len - 1) (c = '\n') t
        | none => c :: headingFixAux 0 (c = '\n') t
      else c :: headingFixAux 0 (c = '\n') t
    else headingFixAux (skip - 1) (c = '\n') t

/-- `re.sub(r'^(Điều\s+\d+)(\s+)([^\.\n]*)$', r'\1. \3', s, flags=M)`. -/
def headingFix (s : Str) : Str := headingFixAux 0 true s

/-- `normalize_text` from clean_and_split.py.  The
`unicodedata.normalize("NFC", ·)` step is the identity on the composed
strings modelled here. -/
def normalize_text (s : Str) : Str :=
  let s1 := (replaceCrLf s).map (fun c => if c = '\r' then '\n' else c)
  let s2 := collapseHWsAux false s1
  let s3 := squeezeNlAux [] s2
  let s4 := squeezeNl3Aux 0 s3
  strip (headingFix s4)

/-! ## clean_and_split.py — the pipeline of `process_one` -/

/-- The point node and the leaves below it (the `for letter, ptext in
points` body of `process_one`). -/
def pointItems (law path chapter sectionLabel article_no article_title : Str)
    (article_id clause_id : Str) (clause_no : Option ℤ)
    (letterPt : Char × Str) : List Item :=
  let point_id := clause_id ++ '_' :: [letterPt.1]
  { id := point_id, granularity := "point_node".data, law := law,
    law_code := law_code_from_filename path, chapter := chapter,
    sectionLabel := sectionLabel, article_no := article_no,
    article_title := article_title, clause_no := clause_no,
    point := some letterPt.1,
    path := build_path chapter sectionLabel article_no clause_no (some letterPt.1) none,
    parents := [("clause_id".data, clause_id), ("article_id".data, article_id)],
    text := letterPt.2, embed_text := [], source_file := basename path } ::
  (match split_bullets letterPt.2 with
   | [] =>
     emit_leaf law path chapter sectionLabel article_no article_title
       clause_no (some letterPt.1) none letterPt.2
       [("clause_id".data, clause_id), ("article_id".data, article_id)]
   | b :: bs =>
     ((b :: bs).enum).flatMap (fun bi =>
       emit_leaf law path chapter sectionLabel article_no article_title
         clause_no (some letterPt.1) (some (bi.1 + 1)) bi.2
         [("point_id".data, point_id), ("clause_id".data, clause_id),
          ("article_id".data, article_id)]))

/-- The clause node and everything below it (the `for clause_no, clause_body
in clauses` body of `process_one`). -/
def clauseItems (law path chapter sectionLabel article_no article_title article_id : Str)
    (cb : Option ℤ × Str) : List Item :=
  let clause_id := article_id ++
    (match cb.1 with
     | some n => "_K".data ++ pyIntRepr n
     | none => "_PRE".data)
  { id := clause_id, granularity := "clause_node".data, law := law,
    law_code := law_code_from_filename path, chapter := chapter,
    sectionLabel := sectionLabel, article_no := article_no,
    article_title := article_title, clause_no := cb.1,
    path := build_path chapter sectionLabel article_no cb.1 none none,
    parents := [("article_id".data, article_id)],
    text := cb.2, embed_text := [], source_file := basename path } ::
  (match split_points cb.2 with
   | p :: ps =>
     (p :: ps).flatMap
       (pointItems law path chapter sectionLabel article_no article_title
         article_id clause_id cb.1)
   | [] =>
     match cb.1 with
     | some n =>
       emit_leaf law path chapter sectionLabel article_no article_title
         (some n) none none cb.2 [("article_id".data, article_id)]
     | none =>
       if strip cb.2 = [] then []
       else
         emit_leaf law path chapter sectionLabel article_no article_title
           none none none cb.2 [("article_id".data, article_id)])

/-- The article-root node and everything below it (the `for art in
parse_articles(doc)` body of `process_one`). -/
def articleItems (law path : Str) (art : Article) : List Item :=
  let article_id := pathStem path ++ "_D".data ++ art.article_no
  { id := article_id, granularity := "article_root".data, law := law,
    law_code := law_code_from_filename path, chapter := art.chapter,
    sectionLabel := art.sectionLabel, article_no := art.article_no,
    article_title := art.article_title,
    path := build_path art.chapter art.sectionLabel art.article_no none none none,
    parents := [], text := art.article_text, embed_text := [],
    source_file := basename path } ::
  (split_clauses art.article_text).flatMap
    (clauseItems law path art.chapter art.sectionLabel art.article_no
      art.article_title article_id)

/-- `process_one` from clean_and_split.py (modulo file I/O): normalise the
raw text, parse the articles, and emit all nodes and chunks in order. -/
def process_one (law_name path raw : Str) : List Item :=
  (parse_articles (normalize_text raw)).flatMap (articleItems law_name path)

/-- A two-line document with one article and one clause without points —
the counterexample input for the identifier-uniqueness claim. -/
def ceDoc : Str := "Điều 1. T\n1. Nội dung".data

/-- An article body whose single clause has two points — the counterexample
input for the partition claim. -/
def ceDocPoints : Str := "Điều 1. T\n1. a) x\nb) y".data

/-- The non-whitespace character sequence of a string: two strings are equal
"modulo whitespace collapsing" exactly when these agree. -/
def nonWsChars (s : Str) : Str := s.filter (fun c => !isWs c)

/-- The granularities of emitted leaf chunks. -/
def isLeafGran (g : Str) : Bool := g = "leaf".data || g = "leaf_window".data

/-- The granularities of emitted structural nodes. -/
def isNodeGran (g : Str) : Bool :=
  g = "article_root".data || g = "clause_node".data || g = "point_node".data

/-- The raw texts of the leaf chunks emitted for one article, in emission
order. -/
def leaf_texts (law path : Str) (art : Article) : List Str :=
  ((articleItems law path art).filter (fun it => isLeafGran it.granularity)).map Item.text

/-- A concrete article with one point-free clause (the witness input for the
amended partition claim). -/
def ceArticle : Article :=
  { chapter := [], sectionLabel := [], article_no := "1".data,
    article_title := "T".data, article_text := "1. Nội dung".data }

/-! ## Identifier anatomy

Every emitted identifier is the source-file stem followed by blocks
determined by the item's structural position; these renderings isolate that
structure for the uniqueness analysis. -/

/-- The `_K{n}` block of a leaf identifier. -/
def kPartStr : Option ℤ → Str
  | some n => "_K".data ++ pyIntRepr n
  | none => []

/-- The `_{letter}` block of an identifier. -/
def pPartStr : Option Char → Str
  | some c => '_' :: [c]
  | none => []

/-- The `_b{i}` block of a leaf identifier. -/
def bPartStr : Option ℕ → Str
  | some i => "_b".data ++ natDigits i
  | none => []

/-- The `_w{i}` block of a window-chunk identifier. -/
def wPartStr : Option ℕ → Str
  | some i => "_w".data ++ natDigits i
  | none => []

/-- The identifier `emit_leaf` gives a leaf with the given structural
position (article number string, clause number, point letter, bullet index,
window number). -/
def leafIdOf (stem a : Str) (k : Option ℤ) (p : Option Char) (b w : Option ℕ) : Str :=
  stem ++ "_D".data ++ a ++ kPartStr k ++ pPartStr p ++ bPartStr b ++ wPartStr w

/-- The `_K{n}` / `_PRE` block of a clause-node identifier. -/
def kNodeStr : Option ℤ → Str
  | some n => "_K".data ++ pyIntRepr n
  | none => "_PRE".data

/-- The identifier `process_one` gives a structural node: the article root
(`rest = none`), a clause node (`rest = some (key, none)`), or a point node
(`rest = some (key, some letter)`). -/
def nodeIdOf (stem a : Str) (rest : Option (Option ℤ × Option Char)) : Str :=
  stem ++ "_D".data ++ a ++
    (match rest with
     | none => []
     | some (key, p) => kNodeStr key ++ pPartStr p)

/-- The structural position of a leaf chunk, as recorded in its own fields. -/
def leafTag (it : Item) : Str × Option ℤ × Option Char × Option ℕ × Option ℕ :=
  (it.article_no, it.clause_no, it.point, it.bullet_idx, it.window_seq)

/-- The structural position of a node, as recorded in its own fields. -/
def nodeTag (it : Item) : Str × Option (Option ℤ × Option Char) :=
  (it.article_no,
    if it.granularity = "article_root".data then none
    else some (it.clause_no, it.point))

/-- A leaf chunk's identifier is the rendering of its own structural tag. -/
def leafOK (path : Str) (it : Item) : Prop :=
  it.id = leafIdOf (pathStem path) it.article_no it.clause_no it.point
    it.bullet_idx it.window_seq

/-- A node's identifier is the rendering of its own structural tag. -/
def nodeOK (path : Str) (it : Item) : Prop :=
  it.id = nodeIdOf (pathStem path) it.article_no (nodeTag it).2

/-- Two emitted items are separated: if both are leaf chunks their leaf
tags differ, and if both are structural nodes their node tags differ. -/
def tagSep (x y : Item) : Prop :=
  (isLeafGran x.granularity = true → isLeafGran y.granularity = true →
    leafTag x ≠ leafTag y) ∧
  (isNodeGran x.granularity = true → isNodeGran y.granularity = true →
    nodeTag x ≠ nodeTag y)

/-! ## Theorems: alpha tuning (C4, C8, C10) -/

/-- **C4, counterexample.**  The claim "for every `base_alpha` the returned
blending weight lies in `[0,1]`" fails: with `base_alpha = -1` (and the
empty query, which matches neither feature regex) the weight is
`min 0.75 (-1 + 0.20) = -0.8 < 0`. -/
theorem C4_counterexample :
    ¬ (0 ≤ (tune_alpha_and_pool [] (-1) 5).1 ∧ (tune_alpha_and_pool [] (-1) 5).1 ≤ 1) := by
  have h1 : legalHintSearch [] = false := rfl
  have h2 : numericSearch [] = false := rfl
  simp only [tune_alpha_and_pool, h1, h2, Bool.false_eq_true, if_false]
  norm_num [min_def]

/-- **C4, amended.**  For every query string and every `k`, if `base_alpha`
lies in `[0,1]` then `tune_alpha_and_pool` returns a blending weight in
`[0,1]` and a candidate pool size of at least 10 (hence valid/positive). -/
theorem tune_alpha_and_pool_valid (query : Str) (base_alpha : ℚ) (k : ℤ)
    (h0 : 0 ≤ base_alpha) (h1 : base_alpha ≤ 1) :
    0 ≤ (tune_alpha_and_pool query base_alpha k).1 ∧
      (tune_alpha_and_pool query base_alpha k).1 ≤ 1 ∧
      10 ≤ (tune_alpha_and_pool query base_alpha k).2 := by
  unfold tune_alpha_and_pool
  split_ifs <;> refine ⟨?_, ?_, ?_⟩
  · exact le_trans (by norm_num) (le_max_left _ _)
  · exact max_le (by norm_num) (by linarith)
  · exact le_trans (by norm_num) (le_max_left _ _)
  · exact le_trans (by norm_num) (le_max_left _ _)
  · exact max_le (by norm_num) (by linarith)
  · exact le_trans (by norm_num) (le_max_left _ _)
  · exact le_min (by norm_num) (by linarith)
  · exact le_trans (min_le_left _ _) (by norm_num)
  · exact le_trans (by norm_num) (le_max_left _ _)

/-- Witness for `tune_alpha_and_pool_valid` at the default parameters. -/
theorem tune_alpha_and_pool_valid_witness :
    (0 ≤ (0.55 : ℚ) ∧ (0.55 : ℚ) ≤ 1) ∧
      (0 ≤ (tune_alpha_and_pool [] 0.55 5).1 ∧
        (tune_alpha_and_pool [] 0.55 5).1 ≤ 1 ∧
        10 ≤ (tune_alpha_and_pool [] 0.55 5).2) :=
  ⟨⟨by norm_num, by norm_num⟩,
    tune_alpha_and_pool_valid [] 0.55 5 (by norm_num) (by norm_num)⟩

/-- **C10.**  For every query, `base_alpha` and `k ≥ 0`, the candidate pool
size is at least 10 and at least `4·k` in every heuristic branch, so the
pool is never smaller than the number of requested results. -/
theorem tune_pool_lower_bound (query : Str) (base_alpha : ℚ) (k : ℤ) (hk : 0 ≤ k) :
    10 ≤ (tune_alpha_and_pool query base_alpha k).2 ∧
      4 * k ≤ (tune_alpha_and_pool query base_alpha k).2 := by
  unfold tune_alpha_and_pool
  split_ifs <;>
    exact ⟨by simp only [le_max_iff]; left; norm_num,
      by simp only [le_max_iff]; right; linarith⟩

/-- Witness for `tune_pool_lower_bound` at `k = 5`. -/
theorem tune_pool_lower_bound_witness :
    0 ≤ (5 : ℤ) ∧
      (10 ≤ (tune_alpha_and_pool [] 0.55 5).2 ∧
        4 * 5 ≤ (tune_alpha_and_pool [] 0.55 5).2) :=
  ⟨by norm_num, tune_pool_lower_bound [] 0.55 5 (by norm_num)⟩

/-- **C8.**  The query `"Điều 15"` matches the structural legal-citation
pattern, so `tune_alpha_and_pool` at the configured baseline `0.55` selects
a blending weight strictly below `0.55 - 0.2`. -/
theorem legal_citation_query_lowers_alpha :
    (tune_alpha_and_pool "Điều 15".data 0.55 5).1 < 0.55 - 0.2 := by
  have h : legalHintSearch "Điều 15".data = true := by decide
  simp only [tune_alpha_and_pool, h, if_true]
  norm_num [max_def]

/-! ## Theorems: deduplication (C9) -/

theorem dedupeAux_sublist : ∀ (l seen : List Str), List.Sublist (dedupeAux seen l) l
  | [], _ => List.Sublist.slnil
  | s :: rest, seen => by
    simp only [dedupeAux]
    split_ifs with h
    · exact (dedupeAux_sublist rest _).cons₂ s
    · exact (dedupeAux_sublist rest seen).cons s

theorem dedupeAux_not_mem_seen :
    ∀ (l seen : List Str) (x : Str), x ∈ dedupeAux seen l → normKey x ∉ seen
  | [], _, _, hx => by simp [dedupeAux] at hx
  | s :: rest, seen, x, hx => by
    simp only [dedupeAux] at hx
    split_ifs at hx with h
    · rcases List.mem_cons.mp hx with rfl | hx'
      · exact h.2
      · exact fun hs =>
          dedupeAux_not_mem_seen rest _ x hx' (List.mem_cons_of_mem _ hs)
    · exact dedupeAux_not_mem_seen rest seen x hx

theorem dedupeAux_pairwise :
    ∀ (l seen : List Str), (dedupeAux seen l).Pairwise (fun a b => normKey a ≠ normKey b)
  | [], _ => List.Pairwise.nil
  | s :: rest, seen => by
    simp only [dedupeAux]
    split_ifs with h
    · refine List.Pairwise.cons (fun y hy hkey => ?_) (dedupeAux_pairwise rest _)
      exact dedupeAux_not_mem_seen rest _ y hy (hkey ▸ List.mem_cons_self _ _)
    · exact dedupeAux_pairwise rest seen

theorem firstSeenDedupe_cons (s : Str) (rest : List Str) :
    firstSeenDedupe (s :: rest) =
      if normKey s = [] then firstSeenDedupe rest
      else s :: firstSeenDedupe (rest.filter (fun t => normKey t ≠ normKey s)) := by
  simp only [firstSeenDedupe]

theorem dedupeAux_eq_firstSeen :
    ∀ (l seen : List Str),
      dedupeAux seen l = firstSeenDedupe (l.filter (fun t => normKey t ∉ seen))
  | [], seen => by simp [dedupeAux, firstSeenDedupe]
  | s :: rest, seen => by
    by_cases hseen : normKey s ∈ seen
    · have h1 : dedupeAux seen (s :: rest) = dedupeAux seen rest := by
        simp only [dedupeAux]
        rw [if_neg (show ¬(normKey s ≠ [] ∧ normKey s ∉ seen) from fun hc => hc.2 hseen)]
      have h2 : (s :: rest).filter (fun t => normKey t ∉ seen) =
          rest.filter (fun t => normKey t ∉ seen) :=
        List.filter_cons_of_neg (by simp [hseen])
      rw [h1, h2]
      exact dedupeAux_eq_firstSeen rest seen
    · have h2 : (s :: rest).filter (fun t => normKey t ∉ seen) =
          s :: rest.filter (fun t => normKey t ∉ seen) :=
        List.filter_cons_of_pos (by simp [hseen])
      rw [h2]
      by_cases hnil : normKey s = []
      · have h1 : dedupeAux seen (s :: rest) = dedupeAux seen rest := by
          simp only [dedupeAux]
          rw [if_neg (show ¬(normKey s ≠ [] ∧ normKey s ∉ seen) from fun hc => hc.1 hnil)]
        have h3 := firstSeenDedupe_cons s (rest.filter (fun t => normKey t ∉ seen))
        rw [if_pos hnil] at h3
        rw [h1, h3]
        exact dedupeAux_eq_firstSeen rest seen
      · have h1 : dedupeAux seen (s :: rest) =
            s :: dedupeAux (normKey s :: seen) rest := by
          simp only [dedupeAux]
          rw [if_pos (show normKey s ≠ [] ∧ normKey s ∉ seen from ⟨hnil, hseen⟩)]
        have h3 := firstSeenDedupe_cons s (rest.filter (fun t => normKey t ∉ seen))
        rw [if_neg hnil] at h3
        rw [h1, h3, dedupeAux_eq_firstSeen rest (normKey s :: seen)]
        congr 1
        rw [List.filter_filter]
        refine congrArg firstSeenDedupe (List.filter_congr ?_)
        intro t _
        by_cases ha : normKey t = normKey s <;> by_cases hb : normKey t ∈ seen <;>
          simp [ha, hb, List.mem_cons]

/-- **C9.**  `_dedupe_sources` computes exactly the reference first-seen
deduplication: it retains the first occurrence of each nonempty normalised
key, in input order and with the original spelling (the result is a
subsequence of the input), and no two returned entries have the same key
after lowercasing, trimming and collapsing internal whitespace. -/
theorem dedupe_sources_spec (l : List Str) :
    dedupe_sources l = firstSeenDedupe l ∧
      List.Sublist (dedupe_sources l) l ∧
      (dedupe_sources l).Pairwise (fun a b => normKey a ≠ normKey b) := by
  refine ⟨?_, dedupeAux_sublist l [], dedupeAux_pairwise l []⟩
  have h := dedupeAux_eq_firstSeen l []
  have hf : l.filter (fun t => normKey t ∉ ([] : List Str)) = l :=
    List.filter_eq_self.mpr (fun a _ => by simp)
  rw [hf] at h
  exact h

/-! ## Theorems: reranking (C5) and empty retrieval (C7) -/

theorem cand_of_ite_some {rt : Str} {p : Props} {c : Cand}
    (h : (if rt = [] then none else some (⟨rt, p⟩ : Cand)) = some c) :
    c.rerank_text = rt ∧ rt ≠ [] := by
  by_cases hh : rt = []
  · rw [if_pos hh] at h
    exact absurd h (by simp)
  · rw [if_neg hh] at h
    obtain rfl := Option.some.inj h
    exact ⟨rfl, hh⟩

theorem buildCandidates_rerank_text_ne (objs : List Props) :
    ∀ c ∈ buildCandidates objs, c.rerank_text ≠ [] := by
  intro c hc
  simp only [buildCandidates, List.mem_filterMap] at hc
  obtain ⟨p, -, hp⟩ := hc
  obtain ⟨h1, h2⟩ := cand_of_ite_some hp
  rw [h1]
  exact h2

theorem descLE_trans (a b c : Scored) : descLE a b → descLE b c → descLE a c := by
  simp only [descLE, decide_eq_true_eq]
  exact fun h1 h2 => le_trans h2 h1

theorem descLE_total (a b : Scored) : descLE a b || descLE b a := by
  simp only [descLE, Bool.or_eq_true, decide_eq_true_eq]
  exact le_total _ _

theorem scoreCands_pairwise_idx (cands : List Cand) (score : ℕ → ℚ) :
    (scoreCands cands score).Pairwise (fun a b => a.idx < b.idx) := by
  unfold scoreCands
  rw [List.pairwise_map]
  have h1 : (List.range cands.length).Pairwise (· < ·) := List.pairwise_lt_range _
  have h2 : cands.enum.map Prod.fst = List.range cands.length := by
    rw [List.range_eq_range']
    exact List.enumFrom_map_fst 0 cands
  have h3 : (cands.enum.map Prod.fst).Pairwise (· < ·) := h2 ▸ h1
  exact List.pairwise_map.mp h3

theorem pair_sublist_of_idx_lt {a b : Scored} :
    ∀ {L : List Scored}, L.Pairwise (fun x y => x.idx < y.idx) →
      a ∈ L → b ∈ L → a.idx < b.idx → List.Sublist [a, b] L
  | [], _, ha, _, _ => by simp at ha
  | c :: T, hL, ha, hb, hab => by
    rcases List.pairwise_cons.mp hL with ⟨hcT, hT⟩
    rcases List.mem_cons.mp ha with rfl | haT
    · rcases List.mem_cons.mp hb with rfl | hbT
      · exact absurd hab (lt_irrefl _)
      · exact (List.singleton_sublist.mpr hbT).cons₂ a
    · rcases List.mem_cons.mp hb with rfl | hbT
      · exact absurd hab (by have := hcT a haT; omega)
      · exact (pair_sublist_of_idx_lt hT haT hbT hab).cons c

theorem pair_sublist_positions {α : Type} {a b : α} :
    ∀ {l : List α}, List.Sublist [a, b] l →
      ∃ (i j : Fin l.length), i.1 < j.1 ∧ l.get i = a ∧ l.get j = b := by
  intro l h
  induction l with
  | nil => simp at h
  | cons c T ih =>
    cases h with
    | cons _ h' =>
      obtain ⟨i, j, hij, hia, hjb⟩ := ih h'
      exact ⟨i.succ, j.succ, by simpa using hij, by simpa using hia, by simpa using hjb⟩
    | cons₂ _ h' =>
      have hbT : b ∈ T := List.singleton_sublist.mp h'
      obtain ⟨j, hjb⟩ := List.mem_iff_get.mp hbT
      exact ⟨⟨0, by simp⟩, j.succ, by simp, rfl, by simpa using hjb⟩

theorem not_pair_sublist_swap {α : Type} {a b : α} {l : List α} (hnd : l.Nodup)
    (h1 : List.Sublist [a, b] l) (h2 : List.Sublist [b, a] l) : False := by
  obtain ⟨i, j, hij, hia, hjb⟩ := pair_sublist_positions h1
  obtain ⟨p, q, hpq, hpb, hqa⟩ := pair_sublist_positions h2
  have h3 : i = q := hnd.get_inj_iff.mp (by rw [hia, hqa])
  have h4 : j = p := hnd.get_inj_iff.mp (by rw [hjb, hpb])
  subst h3; subst h4
  omega

/-- **C5.**  The reranking step of `retrieve`: after excluding candidates
whose text span is empty even after the fallback to the raw chunk text, the
top-k output has length at most `k`, is sorted by descending rerank score
with ties between equal scores broken by the candidates' original retrieval
order (Python's sort is stable), and contains only candidates with a
nonempty rerank text.  `score` is the external cross-encoder's (arbitrary)
score assignment by original candidate index. -/
theorem rerank_topk_spec (objs : List Props) (score : ℕ → ℚ) (k : ℕ) :
    (rerank_topk (buildCandidates objs) score k).length ≤ k ∧
      (rerank_topk (buildCandidates objs) score k).Pairwise
        (fun a b => b.score < a.score ∨ (b.score = a.score ∧ a.idx < b.idx)) ∧
      ∀ c ∈ rerank_topk (buildCandidates objs) score k, c.cand.rerank_text ≠ [] := by
  set L := scoreCands (buildCandidates objs) score with hLdef
  have hidx : L.Pairwise (fun a b => a.idx < b.idx) := scoreCands_pairwise_idx _ _
  have hndL : L.Nodup := (hidx.imp (fun {a b} h => by
    intro hab; rw [hab] at h; exact lt_irrefl _ h))
  have hperm := List.mergeSort_perm L descLE
  have hnd : (L.mergeSort descLE).Nodup := hperm.nodup_iff.mpr hndL
  have hsorted : (L.mergeSort descLE).Pairwise (fun a b => descLE a b) :=
    List.sorted_mergeSort descLE_trans descLE_total L
  have hne : (L.mergeSort descLE).Pairwise (fun a b => a.idx ≠ b.idx) := by
    refine (hidx.imp (fun {a b} h => by omega)).perm hperm.symm ?_
    intro a b h
    omega
  have hmain : (L.mergeSort descLE).Pairwise
      (fun a b => b.score < a.score ∨ (b.score = a.score ∧ a.idx < b.idx)) := by
    rw [List.pairwise_iff_forall_sublist]
    intro a b hab
    have hd : descLE a b := List.pairwise_iff_forall_sublist.mp hsorted hab
    have hle : b.score ≤ a.score := by simpa [descLE] using hd
    rcases lt_or_eq_of_le hle with hlt | heq
    · exact Or.inl hlt
    · refine Or.inr ⟨heq, ?_⟩
      by_contra hnot
      have hne' : a.idx ≠ b.idx := List.pairwise_iff_forall_sublist.mp hne hab
      have hba : b.idx < a.idx := by omega
      have haL : a ∈ L := (List.mem_mergeSort).mp (hab.subset (by simp))
      have hbL : b ∈ L := (List.mem_mergeSort).mp (hab.subset (by simp))
      have hsubL : List.Sublist [b, a] L := pair_sublist_of_idx_lt hidx hbL haL hba
      have hsub : List.Sublist [b, a] (L.mergeSort descLE) :=
        List.pair_sublist_mergeSort descLE_trans descLE_total
          (by simp [descLE, heq]) hsubL
      exact not_pair_sublist_swap hnd hab hsub
  refine ⟨?_, ?_, ?_⟩
  · simp only [rerank_topk, ← hLdef, List.length_take]
    exact min_le_left _ _
  · exact hmain.sublist (List.take_sublist _ _)
  · intro c hc
    have hcres : c ∈ L.mergeSort descLE :=
      (List.take_sublist _ _).subset (by simpa [rerank_topk, ← hLdef] using hc)
    have hcL : c ∈ L := (List.mem_mergeSort).mp hcres
    have : c.cand ∈ buildCandidates objs := by
      rw [hLdef] at hcL
      simp only [scoreCands, List.mem_map] at hcL
      obtain ⟨p, hp, rfl⟩ := hcL
      exact List.getElem?_mem (List.mem_enum_iff_getElem?.mp hp)
    exact buildCandidates_rerank_text_ne objs _ this

/-- **C7.**  If the hybrid search yields zero usable candidates (no response
objects, or every object filtered out for an empty text span), `retrieve`
returns exactly `("", [])`. -/
theorem retrieve_empty (objs : List Props) (score : ℕ → ℚ) (k : ℕ)
    (h : buildCandidates objs = []) : retrieve objs score k = ([], []) := by
  simp [retrieve, h]

/-- Witness for `retrieve_empty` on the empty response. -/
theorem retrieve_empty_witness :
    buildCandidates [] = [] ∧ retrieve [] (fun _ => 0) 5 = ([], []) :=
  ⟨rfl, retrieve_empty [] (fun _ => 0) 5 rfl⟩

/-! ## Theorems: generator short-circuit (C6) -/

/-- **C6.**  If the retrieved context is empty (after stripping) or shorter
than the configured minimum of 300 characters, `generate_answer` returns
the fixed "insufficient information" answer with an empty citations list.
The result does not depend on `llm`, i.e. the model is never consulted. -/
theorem generate_answer_short_circuit (question ctx : Str) (srcs : List Str)
    (llm : Str × Str → Except Str Str)
    (h : strip ctx = [] ∨ ctx.length < 300) :
    generate_answer question (ctx, srcs) llm = (insufficientAnswer, []) := by
  simp only [generate_answer, h, if_pos]

/-- Witness for `generate_answer_short_circuit` on an empty context. -/
theorem generate_answer_short_circuit_witness :
    (strip ([] : Str) = [] ∨ ([] : Str).length < 300) ∧
      generate_answer [] ([], []) (fun _ => .error []) = (insufficientAnswer, []) :=
  ⟨Or.inl rfl, generate_answer_short_circuit [] [] [] _ (Or.inl rfl)⟩

/-! ## Theorems: sliding windows (C3) -/

theorem windowSpansAux_cover (N win ov : ℕ) (hsw : max 1 (win - ov) ≤ win) :
    ∀ i w, i ≤ w → w < N →
      ∃ s ∈ windowSpansAux N win ov i, s.1 ≤ w ∧ w < s.2
  | i, w, hiw, hwN => by
    have hiN : i < N := lt_of_le_of_lt hiw hwN
    rw [windowSpansAux, dif_pos hiN]
    by_cases hj : N ≤ i + win
    · exact ⟨(i, min (i + win) N), List.mem_cons_self _ _, hiw, by omega⟩
    · by_cases hw : w < min (i + win) N
      · exact ⟨(i, min (i + win) N), List.mem_cons_self _ _, hiw, hw⟩
      · have hstepw : i + max 1 (win - ov) ≤ w := by omega
        obtain ⟨s, hs, h1, h2⟩ :=
          windowSpansAux_cover N win ov hsw (i + max 1 (win - ov)) w hstepw hwN
        refine ⟨s, ?_, h1, h2⟩
        rw [if_neg hj]
        exact List.mem_cons_of_mem _ hs
  termination_by i w _ _ => N - i
  decreasing_by omega

theorem windowSpansAux_head (N win ov i : ℕ) (hiN : i < N) :
    (windowSpansAux N win ov i).head? = some (i, min (i + win) N) := by
  rw [windowSpansAux, dif_pos hiN]
  rfl

theorem windowSpansAux_chain (N win ov : ℕ) (hws : max 1 (win - ov) < win) :
    ∀ i, (windowSpansAux N win ov i).Chain'
      (fun s t => min s.2 t.2 - max s.1 t.1 = win - max 1 (win - ov))
  | i => by
    by_cases hiN : i < N
    · rw [windowSpansAux, dif_pos hiN]
      by_cases hj : N ≤ i + win
      · rw [if_pos hj]
        simp
      · rw [if_neg hj]
        refine List.chain'_cons'.mpr
          ⟨?_, windowSpansAux_chain N win ov hws (i + max 1 (win - ov))⟩
        intro t ht
        have hnext : i + max 1 (win - ov) < N := by omega
        rw [windowSpansAux_head N win ov _ hnext, Option.mem_def,
          Option.some.injEq] at ht
        subst ht
        show min (min (i + win) N) (min (i + max 1 (win - ov) + win) N) -
          max i (i + max 1 (win - ov)) = win - max 1 (win - ov)
        omega
    · rw [windowSpansAux, dif_neg hiN]
      exact List.chain'_nil
  termination_by i => N - i
  decreasing_by omega

theorem length_filter_enumFrom {α : Type} (q : α → Bool) :
    ∀ (l : List α) (n : ℕ),
      ((l.enumFrom n).filter (fun p => q p.2)).length = (l.filter q).length
  | [], _ => rfl
  | a :: l, n => by
    by_cases hq : q a <;>
      simp [List.enumFrom_cons, List.filter_cons, hq,
        length_filter_enumFrom q l (n + 1)]

/-- `token_count` counts exactly the word indices the window loop walks. -/
theorem token_count_eq_wordIndices_length (text : Str) :
    token_count text = (wordIndices (tokensOf text)).length := by
  unfold token_count wordIndices
  rw [List.length_map, List.enum]
  exact (length_filter_enumFrom _ _ _).symm

/-- **C3.**  For a text whose whitespace-delimited token count exceeds the
leaf threshold of 1200, the window spans produced by
`sliding_windows_by_tokens` with window size 800 and overlap 200 cover
every word index at least once, and every pair of consecutive windows
overlaps by exactly `800 - max 1 (800 - 200) = 200` tokens (so, in
particular, the final window overlaps its predecessor by at least the
configured amount). -/
theorem sliding_windows_cover_and_overlap (text : Str)
    (_h : 1200 < token_count text) :
    (∀ w < (wordIndices (tokensOf text)).length,
        ∃ s ∈ windowSpans (wordIndices (tokensOf text)).length 800 200,
          s.1 ≤ w ∧ w < s.2) ∧
      (windowSpans (wordIndices (tokensOf text)).length 800 200).Chain'
        (fun s t => min s.2 t.2 - max s.1 t.1 = 200) := by
  constructor
  · intro w hw
    exact windowSpansAux_cover _ 800 200 (by omega) 0 w (Nat.zero_le _) hw
  · exact List.Chain'.imp (fun a b hab => by omega)
      (windowSpansAux_chain (wordIndices (tokensOf text)).length 800 200 (by omega) 0)

/-- The token count of `n` repetitions of `"a "` followed by `"a"` is
`n + 1` (used to discharge the threshold hypothesis on `wideText`). -/
theorem token_count_wideText : ∀ n : ℕ,
    token_count ((List.replicate n ['a', ' ']).flatten ++ ['a']) = n + 1
  | 0 => rfl
  | n + 1 => by
    obtain ⟨rest, hrest⟩ :
        ∃ rest, (List.replicate n ['a', ' ']).flatten ++ ['a'] = 'a' :: rest := by
      cases n with
      | zero => exact ⟨[], rfl⟩
      | succ m =>
        exact ⟨' ' :: ((List.replicate m ['a', ' ']).flatten ++ ['a']),
          by simp [List.replicate_succ]⟩
    have ih := token_count_wideText n
    rw [hrest] at ih
    have hstep : (List.replicate (n + 1) ['a', ' ']).flatten ++ ['a'] =
        'a' :: ' ' :: ('a' :: rest) := by
      rw [← hrest]
      simp [List.replicate_succ]
    rw [hstep]
    have h1 : tokensOf ('a' :: ' ' :: 'a' :: rest) =
        ['a'] :: [' '] :: runsAux ['a'] false rest := by
      show runsAux ['a'] (isWs 'a') (' ' :: 'a' :: rest) = _
      rw [show isWs 'a' = false from rfl, runsAux, if_neg (by decide), runsAux,
        if_neg (by decide)]
      rfl
    have h2 : tokensOf ('a' :: rest) = runsAux ['a'] false rest := by
      show runsAux ['a'] (isWs 'a') rest = _
      rw [show isWs 'a' = false from rfl]
    simp only [token_count, h1, List.filter_cons] at ih ⊢
    rw [h2] at ih
    rw [if_pos (by decide), if_neg (by decide)]
    simp only [List.length_cons]
    omega

/-! ## Theorems: the partition of an article into leaves (C2) -/

theorem filter_dropWhile {α : Type} {p q : α → Bool}
    (h : ∀ a, q a = true → p a = false) :
    ∀ l : List α, (l.dropWhile q).filter p = l.filter p := by
  intro l
  induction l with
  | nil => rfl
  | cons c t ih =>
    by_cases hc : q c
    · rw [List.dropWhile_cons_of_pos hc, ih, List.filter_cons, h c hc]
      simp
    · rw [List.dropWhile_cons_of_neg hc]

/-- Stripping only removes whitespace. -/
theorem nonWsChars_strip (s : Str) : nonWsChars (strip s) = nonWsChars s := by
  unfold nonWsChars strip
  have h : ∀ c : Char, isWs c = true → (!isWs c) = false := by
    intro c hc; rw [hc]; rfl
  rw [List.filter_reverse, filter_dropWhile h, List.filter_reverse,
    filter_dropWhile h, List.reverse_reverse]

theorem nonWsChars_of_strip_eq_nil {s : Str} (h : strip s = []) :
    nonWsChars s = [] := by
  rw [← nonWsChars_strip, h]
  rfl

theorem take_append_drop_take {α : Type} :
    ∀ (l : List α) (n m : ℕ), l.take (n + m) = l.take n ++ (l.drop n).take m := by
  intro l n
  induction n generalizing l with
  | zero => simp
  | succ k ih =>
    intro m
    cases l with
    | nil => simp
    | cons c t =>
      simp only [Nat.succ_add, List.take_succ_cons, List.drop_succ_cons,
        List.cons_append, ih t m]

theorem sliceStr_append {t : Str} {a b c : ℕ} (hab : a ≤ b) (hbc : b ≤ c) :
    sliceStr t a b ++ sliceStr t b c = sliceStr t a c := by
  unfold sliceStr
  have h1 : t.drop b = (t.drop a).drop (b - a) := by
    rw [List.drop_drop]
    congr 1
    omega
  rw [h1, ← take_append_drop_take]
  congr 1
  omega

theorem finditerAux_bounds {β : Type} (matchAt : Str → Option (β × ℕ)) :
    ∀ (s : Str) (p : ℕ) (a : Bool) (k : ℕ) (q : ℕ × β),
      q ∈ finditerAux matchAt p a k s → p ≤ q.1 ∧ q.1 < p + s.length := by
  intro s
  induction s with
  | nil => intro p a k q hq; simp [finditerAux] at hq
  | cons c t ih =>
    intro p a k q hq
    rw [finditerAux] at hq
    by_cases hk : k = 0
    · rw [if_pos hk] at hq
      by_cases ha : a
      · rw [if_pos ha] at hq
        cases hm : matchAt (c :: t) with
        | some vl =>
          rw [hm] at hq
          rcases List.mem_cons.mp hq with rfl | hq'
          · simp
          · have := ih (p + 1) (c = '\n') (vl.2 - 1) q hq'
            simp only [List.length_cons]
            omega
        | none =>
          rw [hm] at hq
          have := ih (p + 1) (c = '\n') 0 q hq
          simp only [List.length_cons]
          omega
      · rw [if_neg ha] at hq
        have := ih (p + 1) (c = '\n') 0 q hq
        simp only [List.length_cons]
        omega
    · rw [if_neg hk] at hq
      have := ih (p + 1) (c = '\n') (k - 1) q hq
      simp only [List.length_cons]
      omega

theorem finditerAux_chain {β : Type} (matchAt : Str → Option (β × ℕ)) :
    ∀ (s : Str) (p : ℕ) (a : Bool) (k : ℕ),
      (finditerAux matchAt p a k s).Chain' (fun x y => x.1 < y.1) := by
  intro s
  induction s with
  | nil => intro p a k; simp [finditerAux]
  | cons c t ih =>
    intro p a k
    rw [finditerAux]
    by_cases hk : k = 0
    · rw [if_pos hk]
      by_cases ha : a
      · rw [if_pos ha]
        cases hm : matchAt (c :: t) with
        | some vl =>
          refine List.chain'_cons'.mpr ⟨?_, ih (p + 1) (c = '\n') (vl.2 - 1)⟩
          intro y hy
          have hmem : y ∈ finditerAux matchAt (p + 1) (c = '\n') (vl.2 - 1) t :=
            List.mem_of_mem_head? hy
          have := finditerAux_bounds matchAt t (p + 1) (c = '\n') (vl.2 - 1) y hmem
          omega
        | none => exact ih (p + 1) (c = '\n') 0
      · rw [if_neg ha]
        exact ih (p + 1) (c = '\n') 0
    · rw [if_neg hk]
      exact ih (p + 1) (c = '\n') (k - 1)

theorem withEnds_slices {β : Type} {t : Str} :
    ∀ (r : List (ℕ × β)) (s : ℕ) (v : β),
      ((s, v) :: r).Chain' (fun x y => x.1 < y.1) →
      (∀ m ∈ (s, v) :: r, m.1 ≤ t.length) →
      ((withEnds ((s, v) :: r) t.length).map
        (fun seg => sliceStr t seg.1 seg.2.1)).flatten = sliceStr t s t.length
  | [], s, v, _, _ => by simp [withEnds]
  | (s', v') :: r, s, v, hchain, hbound => by
    have hss' : s < s' := (List.chain'_cons.mp hchain).1
    have hs'len : s' ≤ t.length := hbound (s', v') (by simp)
    have ih := withEnds_slices r s' v' (List.chain'_cons.mp hchain).2
      (fun m hm => hbound m (List.mem_cons_of_mem _ hm))
    simp only [withEnds, List.map_cons, List.flatten_cons, ih]
    exact sliceStr_append (le_of_lt hss') hs'len

/-- Concatenating the clause bodies of `split_clauses` recovers the article
body up to whitespace. -/
theorem split_clauses_nonWs (t : Str) :
    nonWsChars ((split_clauses t).map Prod.snd).flatten = nonWsChars t := by
  unfold split_clauses
  cases hms : finditer clauseMatchAt t with
  | nil => simp [nonWsChars_strip]
  | cons m rest =>
    obtain ⟨s0, v0⟩ := m
    have hchain : ((s0, v0) :: rest).Chain' (fun x y => x.1 < y.1) := by
      rw [← hms]
      exact finditerAux_chain clauseMatchAt t 0 true 0
    have hbound : ∀ q ∈ (s0, v0) :: rest, q.1 ≤ t.length := by
      intro q hq
      rw [← hms] at hq
      have := finditerAux_bounds clauseMatchAt t 0 true 0 q hq
      omega
    have hslices := withEnds_slices (t := t) rest s0 v0 hchain hbound
    have hstripmap :
        nonWsChars ((withEnds ((s0, v0) :: rest) t.length).map
            (fun seg => strip (sliceStr t seg.1 seg.2.1))).flatten =
          nonWsChars ((withEnds ((s0, v0) :: rest) t.length).map
            (fun seg => sliceStr t seg.1 seg.2.1)).flatten := by
      generalize withEnds ((s0, v0) :: rest) t.length = segs
      induction segs with
      | nil => rfl
      | cons sg sgs ih =>
        simp only [List.map_cons, List.flatten_cons, nonWsChars,
          List.filter_append] at ih ⊢
        rw [ih]
        congr 1
        exact nonWsChars_strip _
    have hsegs :
        nonWsChars ((withEnds ((s0, v0) :: rest) t.length).map
            (fun seg => strip (sliceStr t seg.1 seg.2.1))).flatten =
          nonWsChars (sliceStr t s0 t.length) := by
      rw [hstripmap, hslices]
    have hpre :
        nonWsChars ((if 0 < s0 ∧ strip (t.take s0) ≠ [] then
            [(none (α := ℤ), strip (t.take s0))] else []).map Prod.snd).flatten =
          nonWsChars (t.take s0) := by
      split_ifs with hc
      · simp only [List.map_cons, List.map_nil, List.flatten_cons,
          List.flatten_nil, List.append_nil]
        exact nonWsChars_strip _
      · push_neg at hc
        rcases Nat.eq_zero_or_pos s0 with h0 | h0
        · subst h0
          simp [nonWsChars]
        · have := hc h0
          simp only [List.map_nil, List.flatten_nil]
          exact (nonWsChars_of_strip_eq_nil this).symm
    simp only [List.map_append, List.flatten_append, List.map_map]
    have hc1 : ((withEnds ((s0, v0) :: rest) t.length).map
        (Prod.snd ∘ fun seg => ((some (seg.2.2 : ℤ), strip (sliceStr t seg.1 seg.2.1)) :
          Option ℤ × Str))) =
        (withEnds ((s0, v0) :: rest) t.length).map
          (fun seg => strip (sliceStr t seg.1 seg.2.1)) := by
      simp [Function.comp]
    rw [hc1]
    show nonWsChars (_ ++ _) = _
    rw [nonWsChars, List.filter_append, ← nonWsChars, ← nonWsChars, hpre, hsegs]
    have hdrop : sliceStr t s0 t.length = t.drop s0 := by
      unfold sliceStr
      apply List.take_of_length_le
      simp
    rw [hdrop, nonWsChars, nonWsChars, nonWsChars, ← List.filter_append,
      List.take_append_drop]

theorem emit_leaf_small_texts
    (law source_file chapter sectionLabel article_no article_title : Str)
    (clause_no : Option ℤ) (point_letter : Option Char) (bullet_idx : Option ℕ)
    (text : Str) (parents_ids : List (Str × Str))
    (h : ¬ 1200 < token_count text) :
    ((emit_leaf law source_file chapter sectionLabel article_no article_title
        clause_no point_letter bullet_idx text parents_ids).filter
      (fun it => isLeafGran it.granularity)).map Item.text = [strip text] := by
  have hg : isLeafGran "leaf".data = true := by decide
  simp only [emit_leaf, if_neg h, List.filter_cons, List.filter_nil, hg,
    if_true, List.map_cons, List.map_nil]

theorem clauseItems_leaf_nonWs
    (law path chapter sectionLabel article_no article_title article_id : Str)
    (cb : Option ℤ × Str)
    (hpts : split_points cb.2 = []) (htok : token_count cb.2 ≤ 1200) :
    nonWsChars (((clauseItems law path chapter sectionLabel article_no
          article_title article_id cb).filter
        (fun it => isLeafGran it.granularity)).map Item.text).flatten
      = nonWsChars cb.2 := by
  obtain ⟨k, b⟩ := cb
  have hgc : isLeafGran "clause_node".data = false := by decide
  simp only at hpts htok
  have htok' : ¬ 1200 < token_count b := by omega
  simp only [clauseItems, hpts, List.filter_cons, hgc, Bool.false_eq_true,
    if_false]
  cases k with
  | some n =>
    rw [emit_leaf_small_texts _ _ _ _ _ _ _ _ _ _ _ htok']
    simp only [List.flatten_cons, List.flatten_nil, List.append_nil]
    exact nonWsChars_strip b
  | none =>
    by_cases hb : strip b = []
    · rw [if_pos hb]
      simp only [List.filter_nil, List.map_nil, List.flatten_nil]
      exact (nonWsChars_of_strip_eq_nil hb).symm
    · rw [if_neg hb, emit_leaf_small_texts _ _ _ _ _ _ _ _ _ _ _ htok']
      simp only [List.flatten_cons, List.flatten_nil, List.append_nil]
      exact nonWsChars_strip b

theorem clauses_leaf_nonWs
    (law path chapter sectionLabel article_no article_title article_id : Str) :
    ∀ (cl : List (Option ℤ × Str)),
      (∀ cb ∈ cl, split_points cb.2 = []) →
      (∀ cb ∈ cl, token_count cb.2 ≤ 1200) →
      nonWsChars (((cl.flatMap (clauseItems law path chapter sectionLabel
            article_no article_title article_id)).filter
          (fun it => isLeafGran it.granularity)).map Item.text).flatten
        = nonWsChars (cl.map Prod.snd).flatten
  | [], _, _ => rfl
  | cb :: cl, h1, h2 => by
    have ih := clauses_leaf_nonWs law path chapter sectionLabel article_no
      article_title article_id cl
      (fun x hx => h1 x (List.mem_cons_of_mem _ hx))
      (fun x hx => h2 x (List.mem_cons_of_mem _ hx))
    have hc := clauseItems_leaf_nonWs law path chapter sectionLabel article_no
      article_title article_id cb (h1 cb (List.mem_cons_self _ _))
      (h2 cb (List.mem_cons_self _ _))
    simp only [List.flatMap_cons, List.filter_append, List.map_append,
      List.flatten_append, List.map_cons, List.flatten_cons, nonWsChars,
      List.filter_append] at hc ih ⊢
    rw [hc, ih]

/-- **C2, amended.**  For an article whose clauses contain no point markers
and whose clause bodies stay at or below the window threshold,
concatenating the raw texts of all emitted leaf chunks reconstructs the
article body up to whitespace: the non-whitespace character sequences
agree.  (With point or bullet markers present, the marker characters, the
clause labels, and any clause text before the first marker are dropped, and
an oversized leaf's windows duplicate overlapped text — see the
counterexample.) -/
theorem article_leaves_partition (law path : Str) (art : Article)
    (hpts : ∀ cb ∈ split_clauses art.article_text, split_points cb.2 = [])
    (htok : ∀ cb ∈ split_clauses art.article_text, token_count cb.2 ≤ 1200) :
    nonWsChars (leaf_texts law path art).flatten = nonWsChars art.article_text := by
  have hroot : isLeafGran "article_root".data = false := by decide
  unfold leaf_texts articleItems
  simp only [List.filter_cons, hroot, Bool.false_eq_true, if_false]
  rw [clauses_leaf_nonWs _ _ _ _ _ _ _ _ hpts htok]
  exact split_clauses_nonWs art.article_text

/-- **C2, counterexample.**  For the parsed article of `ceDocPoints` (one
clause with two points), concatenating the emitted leaf texts loses the
clause label `1.` and the point markers `a)`, `b)`: the non-whitespace
characters do not agree, refuting the claim that nothing is dropped. -/
theorem C2_counterexample :
    ¬ (∀ art ∈ parse_articles (normalize_text ceDocPoints),
        nonWsChars (leaf_texts "L".data "x.txt".data art).flatten =
          nonWsChars art.article_text) := by
  decide

/-- Witness for `article_leaves_partition` at a concrete point-free article. -/
theorem article_leaves_partition_witness :
    (∀ cb ∈ split_clauses ceArticle.article_text, split_points cb.2 = []) ∧
      (∀ cb ∈ split_clauses ceArticle.article_text, token_count cb.2 ≤ 1200) ∧
      nonWsChars (leaf_texts "L".data "x.txt".data ceArticle).flatten =
        nonWsChars ceArticle.article_text :=
  ⟨by decide, by decide,
    article_leaves_partition "L".data "x.txt".data ceArticle (by decide) (by decide)⟩

theorem sliding_windows_cover_and_overlap_witness :
    1200 < token_count wideText ∧
      ((∀ w < (wordIndices (tokensOf wideText)).length,
          ∃ s ∈ windowSpans (wordIndices (tokensOf wideText)).length 800 200,
            s.1 ≤ w ∧ w < s.2) ∧
        (windowSpans (wordIndices (tokensOf wideText)).length 800 200).Chain'
          (fun s t => min s.2 t.2 - max s.1 t.1 = 200)) :=
  ⟨by rw [wideText, token_count_wideText]; omega,
    sliding_windows_cover_and_overlap wideText
      (by rw [wideText, token_count_wideText]; omega)⟩

/-! ## Theorems: identifier uniqueness (C1) — decimal renderings -/

theorem digitChar_digit : ∀ m < 10, isDigitC (digitChar m) = true := by decide

theorem digitVal_digitChar : ∀ m < 10, digitVal (digitChar m) = m := by decide

theorem decodeDigits_append_singleton (a : Str) (c : Char) :
    decodeDigits (a ++ [c]) = 10 * decodeDigits a + digitVal c := by
  unfold decodeDigits
  rw [List.foldl_append]
  rfl

theorem natDigitsAux_spec :
    ∀ (fuel n : ℕ), n < fuel →
      natDigitsAux fuel n ≠ [] ∧ (∀ c ∈ natDigitsAux fuel n, isDigitC c = true) ∧
        decodeDigits (natDigitsAux fuel n) = n
  | 0, n, h => absurd h (by omega)
  | fuel + 1, n, h => by
    rw [natDigitsAux]
    by_cases h10 : n < 10
    · rw [if_pos h10]
      refine ⟨by simp, ?_, ?_⟩
      · intro c hc
        rw [List.mem_singleton.mp hc]
        exact digitChar_digit n h10
      · show decodeDigits ([] ++ [digitChar n]) = n
        rw [decodeDigits_append_singleton]
        have := digitVal_digitChar n h10
        unfold decodeDigits
        simp only [List.foldl_nil]
        omega
    · rw [if_neg h10]
      have hlt : n / 10 < fuel := by omega
      obtain ⟨h1, h2, h3⟩ := natDigitsAux_spec fuel (n / 10) hlt
      refine ⟨by simp, ?_, ?_⟩
      · intro c hc
        rcases List.mem_append.mp hc with hc' | hc'
        · exact h2 c hc'
        · rw [List.mem_singleton.mp hc']
          exact digitChar_digit _ (Nat.mod_lt _ (by omega))
      · rw [decodeDigits_append_singleton, h3,
          digitVal_digitChar _ (Nat.mod_lt _ (by omega))]
        omega

theorem natDigits_ne_nil (n : ℕ) : natDigits n ≠ [] :=
  (natDigitsAux_spec (n + 1) n (by omega)).1

theorem natDigits_digits (n : ℕ) : ∀ c ∈ natDigits n, isDigitC c = true :=
  (natDigitsAux_spec (n + 1) n (by omega)).2.1

theorem decodeDigits_natDigits (n : ℕ) : decodeDigits (natDigits n) = n :=
  (natDigitsAux_spec (n + 1) n (by omega)).2.2

theorem natDigits_inj {m n : ℕ} (h : natDigits m = natDigits n) : m = n := by
  have := decodeDigits_natDigits m
  rw [h, decodeDigits_natDigits] at this
  omega

theorem pyIntRepr_nonneg {n : ℤ} (h : 0 ≤ n) : pyIntRepr n = natDigits n.toNat := by
  unfold pyIntRepr
  rw [if_neg (by omega)]

theorem pyIntRepr_inj {m n : ℤ} (hm : 0 ≤ m) (hn : 0 ≤ n)
    (h : pyIntRepr m = pyIntRepr n) : m = n := by
  rw [pyIntRepr_nonneg hm, pyIntRepr_nonneg hn] at h
  have := natDigits_inj h
  omega

/-! ## Theorems: identifier uniqueness (C1) — block cancellation -/

theorem digits_block_cancel :
    ∀ (a b : Str) {x y : Str},
      (∀ c ∈ a, isDigitC c = true) → (∀ c ∈ b, isDigitC c = true) →
      (∀ c, x.head? = some c → isDigitC c = false) →
      (∀ c, y.head? = some c → isDigitC c = false) →
      a ++ x = b ++ y → a = b ∧ x = y
  | [], [], x, y, _, _, _, _, h => ⟨rfl, h⟩
  | [], d :: b', x, y, _, hb, hx, _, h => by
    simp only [List.nil_append, List.cons_append] at h
    have hd : isDigitC d = true := hb d (List.mem_cons_self _ _)
    have := hx d (by rw [h]; rfl)
    rw [this] at hd
    exact absurd hd (by simp)
  | c :: a', [], x, y, ha, _, _, hy, h => by
    simp only [List.nil_append, List.cons_append] at h
    have hd : isDigitC c = true := ha c (List.mem_cons_self _ _)
    have := hy c (by rw [← h]; rfl)
    rw [this] at hd
    exact absurd hd (by simp)
  | c :: a', d :: b', x, y, ha, hb, hx, hy, h => by
    simp only [List.cons_append, List.cons.injEq] at h
    obtain ⟨rfl, h'⟩ := h
    obtain ⟨h1, h2⟩ := digits_block_cancel a' b'
      (fun e he => ha e (List.mem_cons_of_mem _ he))
      (fun e he => hb e (List.mem_cons_of_mem _ he)) hx hy h'
    exact ⟨by rw [h1], h2⟩

/-- A nonempty digit string followed by anything cannot equal a list that is
empty or starts with an underscore. -/
theorem digits_ne_tail {d X Y : Str} (hd : d ≠ []) (hdig : ∀ c ∈ d, isDigitC c = true)
    (hY : Y = [] ∨ ∃ t, Y = '_' :: t) (h : d ++ X = Y) : False := by
  rcases hY with rfl | ⟨t, rfl⟩
  · exact hd (List.append_eq_nil.mp h).1
  · cases d with
    | nil => exact hd rfl
    | cons c d' =>
      simp only [List.cons_append, List.cons.injEq] at h
      have := hdig c (List.mem_cons_self _ _)
      rw [h.1] at this
      exact absurd this (by decide)

theorem tailOK_append {X Y : Str} (hX : X = [] ∨ ∃ t, X = '_' :: t)
    (hY : Y = [] ∨ ∃ t, Y = '_' :: t) :
    X ++ Y = [] ∨ ∃ t, X ++ Y = '_' :: t := by
  rcases hX with rfl | ⟨t, rfl⟩
  · simpa using hY
  · exact Or.inr ⟨t ++ Y, rfl⟩

theorem pPart_tailOK (p : Option Char) :
    pPartStr p = [] ∨ ∃ t, pPartStr p = '_' :: t := by
  cases p <;> simp [pPartStr]

theorem bPart_tailOK (b : Option ℕ) :
    bPartStr b = [] ∨ ∃ t, bPartStr b = '_' :: t := by
  cases b <;> simp [bPartStr]

theorem wPart_tailOK (w : Option ℕ) :
    wPartStr w = [] ∨ ∃ t, wPartStr w = '_' :: t := by
  cases w <;> simp [wPartStr]

theorem kPart_tailOK (k : Option ℤ) :
    kPartStr k = [] ∨ ∃ t, kPartStr k = '_' :: t := by
  cases k <;> simp [kPartStr]

theorem tailOK_head_not_digit {X : Str} (hX : X = [] ∨ ∃ t, X = '_' :: t) :
    ∀ c, X.head? = some c → isDigitC c = false := by
  rcases hX with rfl | ⟨t, rfl⟩
  · intro c hc; cases hc
  · intro c hc
    cases hc
    decide

theorem wPart_cancel {w w' : Option ℕ} (h : wPartStr w = wPartStr w') : w = w' := by
  cases w with
  | none =>
    cases w' with
    | none => rfl
    | some i' =>
      rw [show wPartStr none = [] from rfl,
        show wPartStr (some i') = '_' :: 'w' :: natDigits i' from rfl] at h
      simp at h
  | some i =>
    cases w' with
    | none =>
      rw [show wPartStr (some i) = '_' :: 'w' :: natDigits i from rfl,
        show wPartStr none = [] from rfl] at h
      simp at h
    | some i' =>
      rw [show wPartStr (some i) = '_' :: 'w' :: natDigits i from rfl,
        show wPartStr (some i') = '_' :: 'w' :: natDigits i' from rfl] at h
      simp only [List.cons.injEq, true_and] at h
      exact congrArg some (natDigits_inj h)

theorem bw_cancel {b b' w w' : Option ℕ}
    (h : bPartStr b ++ wPartStr w = bPartStr b' ++ wPartStr w') :
    b = b' ∧ w = w' := by
  cases b with
  | none =>
    cases b' with
    | none => exact ⟨rfl, wPart_cancel h⟩
    | some i' =>
      exfalso
      rw [show bPartStr none = [] from rfl,
        show bPartStr (some i') = '_' :: 'b' :: natDigits i' from rfl,
        List.nil_append] at h
      cases w with
      | none => rw [show wPartStr none = [] from rfl] at h; simp at h
      | some i =>
        rw [show wPartStr (some i) = '_' :: 'w' :: natDigits i from rfl] at h
        simp only [List.cons_append, List.cons.injEq] at h
        exact absurd h.2.1 (by decide)
  | some i =>
    cases b' with
    | none =>
      exfalso
      rw [show bPartStr none = [] from rfl,
        show bPartStr (some i) = '_' :: 'b' :: natDigits i from rfl,
        List.nil_append] at h
      cases w' with
      | none => rw [show wPartStr none = [] from rfl] at h; simp at h
      | some i' =>
        rw [show wPartStr (some i') = '_' :: 'w' :: natDigits i' from rfl] at h
        simp only [List.cons_append, List.cons.injEq] at h
        exact absurd h.2.1 (by decide)
    | some i' =>
      rw [show bPartStr (some i) = '_' :: 'b' :: natDigits i from rfl,
        show bPartStr (some i') = '_' :: 'b' :: natDigits i' from rfl] at h
      simp only [List.cons_append, List.cons.injEq, true_and] at h
      obtain ⟨hd, hw⟩ := digits_block_cancel (natDigits i) (natDigits i')
        (natDigits_digits i) (natDigits_digits i')
        (tailOK_head_not_digit (wPart_tailOK w))
        (tailOK_head_not_digit (wPart_tailOK w')) h
      exact ⟨congrArg some (natDigits_inj hd), wPart_cancel hw⟩

theorem cons2_inj {a b a' b' : Char} {t t' : Str}
    (h : a :: b :: t = a' :: b' :: t') : a = a' ∧ b = b' ∧ t = t' := by
  injection h with h1 h2
  injection h2 with h2 h3
  exact ⟨h1, h2, h3⟩

theorem pbw_cancel {p p' : Option Char} {b b' w w' : Option ℕ}
    (h : pPartStr p ++ (bPartStr b ++ wPartStr w) =
      pPartStr p' ++ (bPartStr b' ++ wPartStr w')) :
    p = p' ∧ b = b' ∧ w = w' := by
  cases p with
  | none =>
    cases p' with
    | none =>
      obtain ⟨h1, h2⟩ := bw_cancel h
      exact ⟨rfl, h1, h2⟩
    | some c' =>
      exfalso
      cases b with
      | some i =>
        replace h : '_' :: 'b' :: (natDigits i ++ wPartStr w) =
            '_' :: c' :: (bPartStr b' ++ wPartStr w') := h
        obtain ⟨-, -, htl⟩ := cons2_inj h
        exact digits_ne_tail (natDigits_ne_nil i) (natDigits_digits i)
          (tailOK_append (bPart_tailOK b') (wPart_tailOK w')) htl
      | none =>
        cases w with
        | none =>
          replace h : ([] : Str) = '_' :: c' :: (bPartStr b' ++ wPartStr w') := h
          simp at h
        | some i =>
          replace h : '_' :: 'w' :: natDigits i =
              '_' :: c' :: (bPartStr b' ++ wPartStr w') := h
          obtain ⟨-, -, htl⟩ := cons2_inj h
          refine digits_ne_tail (X := []) (natDigits_ne_nil i) (natDigits_digits i)
            (tailOK_append (bPart_tailOK b') (wPart_tailOK w')) ?_
          rw [List.append_nil]
          exact htl
  | some c =>
    cases p' with
    | none =>
      exfalso
      cases b' with
      | some i' =>
        replace h : '_' :: c :: (bPartStr b ++ wPartStr w) =
            '_' :: 'b' :: (natDigits i' ++ wPartStr w') := h
        obtain ⟨-, -, htl⟩ := cons2_inj h
        exact digits_ne_tail (natDigits_ne_nil i') (natDigits_digits i')
          (tailOK_append (bPart_tailOK b) (wPart_tailOK w)) htl.symm
      | none =>
        cases w' with
        | none =>
          replace h : '_' :: c :: (bPartStr b ++ wPartStr w) = ([] : Str) := h
          simp at h
        | some i' =>
          replace h : '_' :: c :: (bPartStr b ++ wPartStr w) =
              '_' :: 'w' :: natDigits i' := h
          obtain ⟨-, -, htl⟩ := cons2_inj h
          refine digits_ne_tail (X := []) (natDigits_ne_nil i') (natDigits_digits i')
            (tailOK_append (bPart_tailOK b) (wPart_tailOK w)) ?_
          rw [List.append_nil]
          exact htl.symm
    | some c' =>
      replace h : '_' :: c :: (bPartStr b ++ wPartStr w) =
          '_' :: c' :: (bPartStr b' ++ wPartStr w') := h
      obtain ⟨-, hc, htl⟩ := cons2_inj h
      obtain ⟨h1, h2⟩ := bw_cancel htl
      exact ⟨congrArg some hc, h1, h2⟩

theorem kpbw_cancel {k k' : Option ℤ} {p p' : Option Char} {b b' w w' : Option ℕ}
    (hk : ∀ n, k = some n → 0 ≤ n) (hk' : ∀ n, k' = some n → 0 ≤ n)
    (h : kPartStr k ++ (pPartStr p ++ (bPartStr b ++ wPartStr w)) =
      kPartStr k' ++ (pPartStr p' ++ (bPartStr b' ++ wPartStr w'))) :
    k = k' ∧ p = p' ∧ b = b' ∧ w = w' := by
  have hdig : ∀ m : ℤ, 0 ≤ m → ∀ c ∈ pyIntRepr m, isDigitC c = true := by
    intro m hm c hc
    rw [pyIntRepr_nonneg hm] at hc
    exact natDigits_digits _ c hc
  have hne : ∀ m : ℤ, 0 ≤ m → pyIntRepr m ≠ [] := by
    intro m hm
    rw [pyIntRepr_nonneg hm]
    exact natDigits_ne_nil _
  cases k with
  | none =>
    cases k' with
    | none =>
      obtain ⟨h1, h2, h3⟩ := pbw_cancel h
      exact ⟨rfl, h1, h2, h3⟩
    | some n' =>
      exfalso
      have hn' : 0 ≤ n' := hk' n' rfl
      cases p with
      | some c =>
        replace h : '_' :: c :: (bPartStr b ++ wPartStr w) =
            '_' :: 'K' :: (pyIntRepr n' ++ (pPartStr p' ++ (bPartStr b' ++ wPartStr w'))) := h
        obtain ⟨-, -, htl⟩ := cons2_inj h
        exact digits_ne_tail (hne n' hn') (hdig n' hn')
          (tailOK_append (bPart_tailOK b) (wPart_tailOK w)) htl.symm
      | none =>
        cases b with
        | some i =>
          replace h : '_' :: 'b' :: (natDigits i ++ wPartStr w) =
              '_' :: 'K' :: (pyIntRepr n' ++ (pPartStr p' ++ (bPartStr b' ++ wPartStr w'))) := h
          obtain ⟨-, hc, -⟩ := cons2_inj h
          exact absurd hc (by decide)
        | none =>
          cases w with
          | none =>
            replace h : ([] : Str) =
                '_' :: 'K' :: (pyIntRepr n' ++ (pPartStr p' ++ (bPartStr b' ++ wPartStr w'))) := h
            simp at h
          | some i =>
            replace h : '_' :: 'w' :: natDigits i =
                '_' :: 'K' :: (pyIntRepr n' ++ (pPartStr p' ++ (bPartStr b' ++ wPartStr w'))) := h
            obtain ⟨-, hc, -⟩ := cons2_inj h
            exact absurd hc (by decide)
  | some n =>
    cases k' with
    | none =>
      exfalso
      have hn : 0 ≤ n := hk n rfl
      cases p' with
      | some c' =>
        replace h : '_' :: 'K' :: (pyIntRepr n ++ (pPartStr p ++ (bPartStr b ++ wPartStr w))) =
            '_' :: c' :: (bPartStr b' ++ wPartStr w') := h
        obtain ⟨-, -, htl⟩ := cons2_inj h
        exact digits_ne_tail (hne n hn) (hdig n hn)
          (tailOK_append (bPart_tailOK b') (wPart_tailOK w')) htl
      | none =>
        cases b' with
        | some i' =>
          replace h : '_' :: 'K' :: (pyIntRepr n ++ (pPartStr p ++ (bPartStr b ++ wPartStr w))) =
              '_' :: 'b' :: (natDigits i' ++ wPartStr w') := h
          obtain ⟨-, hc, -⟩ := cons2_inj h
          exact absurd hc (by decide)
        | none =>
          cases w' with
          | none =>
            replace h : '_' :: 'K' :: (pyIntRepr n ++ (pPartStr p ++ (bPartStr b ++ wPartStr w))) =
                ([] : Str) := h
            simp at h
          | some i' =>
            replace h : '_' :: 'K' :: (pyIntRepr n ++ (pPartStr p ++ (bPartStr b ++ wPartStr w))) =
                '_' :: 'w' :: natDigits i' := h
            obtain ⟨-, hc, -⟩ := cons2_inj h
            exact absurd hc (by decide)
    | some n' =>
      have hn : 0 ≤ n := hk n rfl
      have hn' : 0 ≤ n' := hk' n' rfl
      replace h : '_' :: 'K' :: (pyIntRepr n ++ (pPartStr p ++ (bPartStr b ++ wPartStr w))) =
          '_' :: 'K' :: (pyIntRepr n' ++ (pPartStr p' ++ (bPartStr b' ++ wPartStr w'))) := h
      obtain ⟨-, -, htl⟩ := cons2_inj h
      obtain ⟨h1, h2⟩ := digits_block_cancel (pyIntRepr n) (pyIntRepr n')
        (hdig n hn) (hdig n' hn')
        (tailOK_head_not_digit (tailOK_append (pPart_tailOK p)
          (tailOK_append (bPart_tailOK b) (wPart_tailOK w))))
        (tailOK_head_not_digit (tailOK_append (pPart_tailOK p')
          (tailOK_append (bPart_tailOK b') (wPart_tailOK w')))) htl
      obtain ⟨h3, h4, h5⟩ := pbw_cancel h2
      exact ⟨congrArg some (pyIntRepr_inj hn hn' h1), h3, h4, h5⟩

/-- Leaf identifiers are injective in the structural position, for digit
article numbers and nonnegative clause numbers. -/
theorem leafIdOf_inj {stem a a' : Str} {k k' : Option ℤ} {p p' : Option Char}
    {b b' w w' : Option ℕ}
    (had : ∀ c ∈ a, isDigitC c = true) (had' : ∀ c ∈ a', isDigitC c = true)
    (hk : ∀ n, k = some n → 0 ≤ n) (hk' : ∀ n, k' = some n → 0 ≤ n)
    (h : leafIdOf stem a k p b w = leafIdOf stem a' k' p' b' w') :
    a = a' ∧ k = k' ∧ p = p' ∧ b = b' ∧ w = w' := by
  unfold leafIdOf at h
  simp only [List.append_assoc] at h
  replace h := List.append_cancel_left h
  replace h := List.append_cancel_left h
  have htail : ∀ (kk : Option ℤ) (pp : Option Char) (bb ww : Option ℕ),
      ∀ c : Char, (kPartStr kk ++ (pPartStr pp ++ (bPartStr bb ++ wPartStr ww))).head? =
        some c → isDigitC c = false := by
    intro kk pp bb ww
    exact tailOK_head_not_digit (tailOK_append (kPart_tailOK kk)
      (tailOK_append (pPart_tailOK pp) (tailOK_append (bPart_tailOK bb)
        (wPart_tailOK ww))))
  obtain ⟨h1, h2⟩ := digits_block_cancel a a' had had'
    (htail k p b w) (htail k' p' b' w') h
  obtain ⟨h3, h4, h5, h6⟩ := kpbw_cancel hk hk' h2
  exact ⟨h1, h3, h4, h5, h6⟩

theorem pPart_cancel {p p' : Option Char} (h : pPartStr p = pPartStr p') : p = p' := by
  cases p with
  | none =>
    cases p' with
    | none => rfl
    | some c' => simp [pPartStr] at h
  | some c =>
    cases p' with
    | none => simp [pPartStr] at h
    | some c' =>
      replace h : ['_', c] = ['_', c'] := h
      simp only [List.cons.injEq, and_true, true_and] at h
      exact congrArg some h

/-- Node identifiers are injective in the structural position. -/
theorem nodeIdOf_inj {stem a a' : Str} {r r' : Option (Option ℤ × Option Char)}
    (had : ∀ c ∈ a, isDigitC c = true) (had' : ∀ c ∈ a', isDigitC c = true)
    (hr : ∀ q, r = some q → ∀ n, q.1 = some n → 0 ≤ n)
    (hr' : ∀ q, r' = some q → ∀ n, q.1 = some n → 0 ≤ n)
    (h : nodeIdOf stem a r = nodeIdOf stem a' r') :
    a = a' ∧ r = r' := by
  have hdig : ∀ m : ℤ, 0 ≤ m → ∀ c ∈ pyIntRepr m, isDigitC c = true := by
    intro m hm c hc
    rw [pyIntRepr_nonneg hm] at hc
    exact natDigits_digits _ c hc
  unfold nodeIdOf at h
  simp only [List.append_assoc] at h
  replace h := List.append_cancel_left h
  replace h := List.append_cancel_left h
  have htail : ∀ (rr : Option (Option ℤ × Option Char)),
      (match rr with
        | none => ([] : Str)
        | some (key, pp) => kNodeStr key ++ pPartStr pp) = [] ∨
      ∃ t, (match rr with
        | none => ([] : Str)
        | some (key, pp) => kNodeStr key ++ pPartStr pp) = '_' :: t := by
    intro rr
    match rr with
    | none => exact Or.inl rfl
    | some (some n, pp) => exact Or.inr ⟨'K' :: (pyIntRepr n ++ pPartStr pp), rfl⟩
    | some (none, pp) => exact Or.inr ⟨'P' :: 'R' :: 'E' :: pPartStr pp, rfl⟩
  obtain ⟨h1, h2⟩ := digits_block_cancel a a' had had'
    (tailOK_head_not_digit (htail r)) (tailOK_head_not_digit (htail r')) h
  refine ⟨h1, ?_⟩
  match r, r' with
  | none, none => rfl
  | none, some (some n', pp') =>
    exfalso
    replace h2 : ([] : Str) = '_' :: 'K' :: (pyIntRepr n' ++ pPartStr pp') := h2
    simp at h2
  | none, some (none, pp') =>
    exfalso
    replace h2 : ([] : Str) = '_' :: 'P' :: 'R' :: 'E' :: pPartStr pp' := h2
    simp at h2
  | some (some n, pp), none =>
    exfalso
    replace h2 : '_' :: 'K' :: (pyIntRepr n ++ pPartStr pp) = ([] : Str) := h2
    simp at h2
  | some (none, pp), none =>
    exfalso
    replace h2 : '_' :: 'P' :: 'R' :: 'E' :: pPartStr pp = ([] : Str) := h2
    simp at h2
  | some (none, pp), some (none, pp') =>
    replace h2 : '_' :: 'P' :: 'R' :: 'E' :: pPartStr pp =
        '_' :: 'P' :: 'R' :: 'E' :: pPartStr pp' := h2
    simp only [List.cons.injEq, true_and] at h2
    rw [pPart_cancel h2]
  | some (none, pp), some (some n', pp') =>
    exfalso
    replace h2 : '_' :: 'P' :: 'R' :: 'E' :: pPartStr pp =
        '_' :: 'K' :: (pyIntRepr n' ++ pPartStr pp') := h2
    obtain ⟨-, hc, -⟩ := cons2_inj h2
    exact absurd hc (by decide)
  | some (some n, pp), some (none, pp') =>
    exfalso
    replace h2 : '_' :: 'K' :: (pyIntRepr n ++ pPartStr pp) =
        '_' :: 'P' :: 'R' :: 'E' :: pPartStr pp' := h2
    obtain ⟨-, hc, -⟩ := cons2_inj h2
    exact absurd hc (by decide)
  | some (some n, pp), some (some n', pp') =>
    have hn : 0 ≤ n := hr (some n, pp) rfl n rfl
    have hn' : 0 ≤ n' := hr' (some n', pp') rfl n' rfl
    replace h2 : '_' :: 'K' :: (pyIntRepr n ++ pPartStr pp) =
        '_' :: 'K' :: (pyIntRepr n' ++ pPartStr pp') := h2
    obtain ⟨-, -, htl⟩ := cons2_inj h2
    obtain ⟨hh1, hh2⟩ := digits_block_cancel (pyIntRepr n) (pyIntRepr n')
      (hdig n hn) (hdig n' hn')
      (tailOK_head_not_digit (pPart_tailOK pp))
      (tailOK_head_not_digit (pPart_tailOK pp')) htl
    rw [pyIntRepr_inj hn hn' hh1, pPart_cancel hh2]

/-! ## Theorems: identifier uniqueness (C1) — emitted items -/

theorem isLeafGran_leaf : isLeafGran "leaf".data = true := by decide
theorem isLeafGran_leafw : isLeafGran "leaf_window".data = true := by decide
theorem isLeafGran_point_node : isLeafGran "point_node".data = false := by decide
theorem isLeafGran_clause_node : isLeafGran "clause_node".data = false := by decide
theorem isLeafGran_article_root : isLeafGran "article_root".data = false := by decide
theorem isNodeGran_leaf : isNodeGran "leaf".data = false := by decide
theorem isNodeGran_leafw : isNodeGran "leaf_window".data = false := by decide
theorem isNodeGran_point_node : isNodeGran "point_node".data = true := by decide
theorem isNodeGran_clause_node : isNodeGran "clause_node".data = true := by decide
theorem isNodeGran_article_root : isNodeGran "article_root".data = true := by decide

theorem enum_pairwise_fst {α : Type} (l : List α) :
    l.enum.Pairwise (fun p q => p.1 < q.1) := by
  have h1 : (List.range l.length).Pairwise (· < ·) := List.pairwise_lt_range _
  have h2 : l.enum.map Prod.fst = List.range l.length := by
    rw [List.range_eq_range']
    exact List.enumFrom_map_fst 0 l
  exact List.pairwise_map.mp (h2 ▸ h1)

/-- Every chunk emitted by `emit_leaf` records its structural position in
its fields, and its identifier is the rendering of that position. -/
theorem emit_leaf_fields
    (law sf ch se an at_ : Str) (cn : Option ℤ) (pl : Option Char)
    (bi : Option ℕ) (tx : Str) (par : List (Str × Str)) :
    ∀ it ∈ emit_leaf law sf ch se an at_ cn pl bi tx par,
      it.id = leafIdOf (pathStem sf) an cn pl bi it.window_seq ∧
      it.article_no = an ∧ it.clause_no = cn ∧ it.point = pl ∧
      it.bullet_idx = bi ∧ isLeafGran it.granularity = true := by
  intro it hit
  unfold emit_leaf at hit
  by_cases htc : 1200 < token_count tx
  · rw [if_pos htc] at hit
    simp only [List.mem_map] at hit
    obtain ⟨q, hq, rfl⟩ := hit
    refine ⟨?_, rfl, rfl, rfl, rfl, isLeafGran_leafw⟩
    show _ = leafIdOf (pathStem sf) an cn pl bi (some (q.1 + 1))
    cases cn <;> cases pl <;> cases bi <;>
      simp [leafIdOf, kPartStr, pPartStr, bPartStr, wPartStr, List.append_assoc]
  · rw [if_neg htc] at hit
    rw [List.mem_singleton] at hit
    subst hit
    refine ⟨?_, rfl, rfl, rfl, rfl, isLeafGran_leaf⟩
    show _ = leafIdOf (pathStem sf) an cn pl bi none
    cases cn <;> cases pl <;> cases bi <;>
      simp [leafIdOf, kPartStr, pPartStr, bPartStr, wPartStr, List.append_assoc]

/-- Distinct windows of one `emit_leaf` call get distinct window numbers. -/
theorem emit_leaf_pairwise_window
    (law sf ch se an at_ : Str) (cn : Option ℤ) (pl : Option Char)
    (bi : Option ℕ) (tx : Str) (par : List (Str × Str)) :
    (emit_leaf law sf ch se an at_ cn pl bi tx par).Pairwise
      (fun x y => x.window_seq ≠ y.window_seq) := by
  unfold emit_leaf
  by_cases htc : 1200 < token_count tx
  · rw [if_pos htc]
    refine List.Pairwise.map _ ?_ (enum_pairwise_fst _)
    intro x y hxy
    simp only [ne_eq, Option.some.injEq]
    omega
  · rw [if_neg htc]
    exact List.pairwise_singleton _ _

/-- All chunks of `emit_leaf` are leaves, so the leaf filter keeps them. -/
theorem filter_leafGran_emit
    (law sf ch se an at_ : Str) (cn : Option ℤ) (pl : Option Char)
    (bi : Option ℕ) (tx : Str) (par : List (Str × Str)) :
    (emit_leaf law sf ch se an at_ cn pl bi tx par).filter
      (fun it => isLeafGran it.granularity) =
      emit_leaf law sf ch se an at_ cn pl bi tx par := by
  rw [List.filter_eq_self]
  intro it hit
  exact (emit_leaf_fields law sf ch se an at_ cn pl bi tx par it hit).2.2.2.2.2

/-- The node filter drops every chunk of `emit_leaf`. -/
theorem filter_nodeGran_emit
    (law sf ch se an at_ : Str) (cn : Option ℤ) (pl : Option Char)
    (bi : Option ℕ) (tx : Str) (par : List (Str × Str)) :
    (emit_leaf law sf ch se an at_ cn pl bi tx par).filter
      (fun it => isNodeGran it.granularity) = [] := by
  rw [List.filter_eq_nil_iff]
  intro it hit
  unfold emit_leaf at hit
  by_cases htc : 1200 < token_count tx
  · rw [if_pos htc] at hit
    simp only [List.mem_map] at hit
    obtain ⟨q, hq, rfl⟩ := hit
    simp only [Bool.not_eq_true]
    decide
  · rw [if_neg htc] at hit
    rw [List.mem_singleton] at hit
    subst hit
    simp only [Bool.not_eq_true]
    decide

/-! ## Theorems: identifier uniqueness (C1) — match payloads -/

/-- Every payload the scanner reports comes from a successful run of the
matcher on some suffix of the input. -/
theorem finditerAux_payload {β : Type} (matchAt : Str → Option (β × ℕ)) :
    ∀ (s : Str) (p : ℕ) (a : Bool) (k : ℕ) (q : ℕ × β),
      q ∈ finditerAux matchAt p a k s → ∃ u len, matchAt u = some (q.2, len) := by
  intro s
  induction s with
  | nil =>
    intro p a k q hq
    simp [finditerAux] at hq
  | cons c t ih =>
    intro p a k q hq
    unfold finditerAux at hq
    by_cases hk : k = 0
    · rw [if_pos hk] at hq
      cases a with
      | true =>
        rw [if_pos rfl] at hq
        cases hm : matchAt (c :: t) with
        | some vl =>
          obtain ⟨v, len⟩ := vl
          rw [hm] at hq
          simp only [List.mem_cons] at hq
          cases hq with
          | inl h =>
            subst h
            exact ⟨c :: t, len, hm⟩
          | inr h => exact ih _ _ _ _ h
        | none =>
          rw [hm] at hq
          exact ih _ _ _ _ hq
      | false =>
        rw [if_neg (by simp)] at hq
        exact ih _ _ _ _ hq
    · rw [if_neg hk] at hq
      exact ih _ _ _ _ hq

/-- Every segment produced by `withEnds` keeps its match's start and
payload. -/
theorem withEnds_payload {β : Type} :
    ∀ (ms : List (ℕ × β)) (len : ℕ) (seg : ℕ × ℕ × β),
      seg ∈ withEnds ms len → (seg.1, seg.2.2) ∈ ms := by
  intro ms
  induction ms with
  | nil =>
    intro len seg h
    simp [withEnds] at h
  | cons m r ih =>
    intro len seg h
    cases r with
    | nil =>
      obtain ⟨s, v⟩ := m
      simp only [withEnds, List.mem_singleton] at h
      subst h
      simp
    | cons m' r' =>
      obtain ⟨s, v⟩ := m
      obtain ⟨s', v'⟩ := m'
      simp only [withEnds, List.mem_cons] at h
      cases h with
      | inl h =>
        subst h
        exact List.mem_cons_self _ _
      | inr h => exact List.mem_cons_of_mem _ (ih len seg h)

/-- Every numbered key produced by `split_clauses` is a nonnegative
integer (the preamble segment has key `none`). -/
theorem split_clauses_key_nonneg (t : Str) :
    ∀ cb ∈ split_clauses t, ∀ n, cb.1 = some n → 0 ≤ n := by
  intro cb hcb n hn
  unfold split_clauses at hcb
  cases hms : finditer clauseMatchAt t with
  | nil =>
    rw [hms] at hcb
    simp only [List.mem_singleton] at hcb
    subst hcb
    simp at hn
  | cons m ms' =>
    obtain ⟨s0, l0⟩ := m
    rw [hms] at hcb
    rw [List.mem_append] at hcb
    cases hcb with
    | inl h =>
      simp only [] at h
      split at h
      · simp only [List.mem_singleton] at h
        subst h
        simp at hn
      · simp at h
    | inr h =>
      simp only [List.mem_map] at h
      obtain ⟨seg, hseg, rfl⟩ := h
      replace hn : (some (seg.2.2 : ℤ) : Option ℤ) = some n := hn
      obtain h := Option.some.inj hn
      subst h
      exact Int.natCast_nonneg _

theorem isDigitC_not_isWs (c : Char) (h : isDigitC c = true) : isWs c = false := by
  by_contra h'
  simp only [Bool.not_eq_false] at h'
  unfold isWs at h'
  simp only [Bool.or_eq_true, decide_eq_true_eq] at h'
  rcases h' with ((((h' | h') | h') | h') | h') | h' <;> subst h' <;> revert h <;> decide

/-- `strip` leaves a string with no whitespace characters unchanged. -/
theorem strip_of_no_ws {s : Str} (h : ∀ c ∈ s, isWs c = false) : strip s = s := by
  unfold strip
  have h1 : s.dropWhile isWs = s := by
    cases s with
    | nil => rfl
    | cons c t => exact List.dropWhile_cons_of_neg (by simp [h c (List.mem_cons_self c t)])
  rw [h1]
  have h2 : s.reverse.dropWhile isWs = s.reverse := by
    cases hrv : s.reverse with
    | nil => rfl
    | cons c t =>
      refine List.dropWhile_cons_of_neg ?_
      have hc : c ∈ s := by
        rw [← List.mem_reverse, hrv]
        exact List.mem_cons_self c t
      simp [h c hc]
  rw [h2, List.reverse_reverse]

/-- A successful article-heading match yields a nonempty all-digit first
group (the article number). -/
theorem articleMatchAt_payload {t : Str} {g : Str × Str} {len : ℕ}
    (h : articleMatchAt t = some (g, len)) :
    g.1 ≠ [] ∧ ∀ c ∈ g.1, isDigitC c = true := by
  obtain ⟨g1, g2⟩ := g
  unfold articleMatchAt at h
  split at h
  · simp only [] at h
    split_ifs at h with hw hd hdot
    · injection h with h2
      injection h2 with h3 h4
      injection h3 with h5 h6
      subst h5
      exact ⟨hd, fun c hc => List.mem_takeWhile_imp hc⟩
    · injection h with h2
      injection h2 with h3 h4
      injection h3 with h5 h6
      subst h5
      exact ⟨hd, fun c hc => List.mem_takeWhile_imp hc⟩
  · exact absurd h (by simp)

/-- Every article produced by the parser has a nonempty all-digit article
number. -/
theorem parse_articles_article_no (d : Str) :
    ∀ art ∈ parse_articles d,
      art.article_no ≠ [] ∧ ∀ c ∈ art.article_no, isDigitC c = true := by
  intro art hart
  unfold parse_articles at hart
  simp only [List.mem_flatMap, List.mem_map] at hart
  obtain ⟨chB, -, seB, -, seg, hseg, hart⟩ := hart
  have h1 := withEnds_payload _ _ _ hseg
  obtain ⟨u, len, hm⟩ := finditerAux_payload articleMatchAt _ 0 true 0 _ h1
  obtain ⟨hne, hdig⟩ := articleMatchAt_payload hm
  have hno : art.article_no = strip seg.2.2.1 := by rw [← hart]
  have hstr : strip seg.2.2.1 = seg.2.2.1 :=
    strip_of_no_ws (fun c hc => isDigitC_not_isWs c (hdig c hc))
  rw [hno, hstr]
  exact ⟨hne, hdig⟩

/-! ## Theorems: identifier uniqueness (C1) — the emission tree, level by
level -/

theorem isLeafGran_not_node {g : Str} (h : isLeafGran g = true) :
    isNodeGran g = false := by
  unfold isLeafGran at h
  simp only [Bool.or_eq_true, decide_eq_true_eq] at h
  rcases h with h | h <;> rw [h] <;> decide

/-- The chunks of one `emit_leaf` call are pairwise separated (they are all
leaves, with distinct window numbers). -/
theorem emit_leaf_tagSep (law sf ch se an at_ : Str) (cn : Option ℤ)
    (pl : Option Char) (bi : Option ℕ) (tx : Str) (par : List (Str × Str)) :
    (emit_leaf law sf ch se an at_ cn pl bi tx par).Pairwise tagSep := by
  refine List.Pairwise.imp_of_mem ?_
    (emit_leaf_pairwise_window law sf ch se an at_ cn pl bi tx par)
  intro x y hx hy hw
  refine ⟨fun _ _ ht => hw (congrArg (fun t => t.2.2.2.2) ht), fun hnx _ => ?_⟩
  have hlx := (emit_leaf_fields law sf ch se an at_ cn pl bi tx par x hx).2.2.2.2.2
  rw [isLeafGran_not_node hlx] at hnx
  simp at hnx

/-- Every item below one point node records the point position in its
fields, and its identifier renders its own tag. -/
theorem pointItems_mem_spec
    (law path ch se an at_ aid cid : Str) (cn : Option ℤ) (lp : Char × Str)
    (hcid : cid = pathStem path ++ "_D".data ++ an ++ kNodeStr cn) :
    ∀ it ∈ pointItems law path ch se an at_ aid cid cn lp,
      it.article_no = an ∧
      (isLeafGran it.granularity = true →
        leafOK path it ∧ it.clause_no = cn ∧ it.point = some lp.1) ∧
      (isNodeGran it.granularity = true →
        nodeOK path it ∧ (nodeTag it).2 = some (cn, some lp.1)) := by
  subst hcid
  intro it hmem
  simp only [pointItems, List.mem_cons] at hmem
  cases hmem with
  | inl h =>
    subst h
    refine ⟨rfl, fun habs => absurd habs (by simp only [Bool.not_eq_true]; decide), fun _ => ⟨?_, ?_⟩⟩
    · simp only [nodeOK, nodeTag]
      rw [if_neg (by decide)]
      simp [nodeIdOf, pPartStr, List.append_assoc]
    · simp only [nodeTag]
      rw [if_neg (by decide)]
  | inr h =>
    cases hsb : split_bullets lp.2 with
    | nil =>
      rw [hsb] at h
      obtain ⟨h1, h2, h3, h4, h5, h6⟩ :=
        emit_leaf_fields law path ch se an at_ cn (some lp.1) none lp.2 _ it h
      refine ⟨h2, fun _ => ?_, fun hn => ?_⟩
      · rw [← h2, ← h3, ← h4, ← h5] at h1
        exact ⟨h1, h3, h4⟩
      · rw [isLeafGran_not_node h6] at hn
        simp at hn
    | cons b bs =>
      rw [hsb] at h
      obtain ⟨bi, -, h⟩ := List.mem_flatMap.mp h
      obtain ⟨h1, h2, h3, h4, h5, h6⟩ :=
        emit_leaf_fields law path ch se an at_ cn (some lp.1) (some (bi.1 + 1)) bi.2 _ it h
      refine ⟨h2, fun _ => ?_, fun hn => ?_⟩
      · rw [← h2, ← h3, ← h4, ← h5] at h1
        exact ⟨h1, h3, h4⟩
      · rw [isLeafGran_not_node h6] at hn
        simp at hn

/-- The items below one point node are pairwise separated. -/
theorem pointItems_tagSep
    (law path ch se an at_ aid cid : Str) (cn : Option ℤ) (lp : Char × Str) :
    (pointItems law path ch se an at_ aid cid cn lp).Pairwise tagSep := by
  simp only [pointItems, List.pairwise_cons]
  constructor
  · intro y hy
    refine ⟨fun habs _ => absurd habs (by simp only [Bool.not_eq_true]; decide), fun _ hny => ?_⟩
    exfalso
    cases hsb : split_bullets lp.2 with
    | nil =>
      rw [hsb] at hy
      have h6 := (emit_leaf_fields law path ch se an at_ cn (some lp.1)
        none lp.2 _ y hy).2.2.2.2.2
      rw [isLeafGran_not_node h6] at hny
      simp at hny
    | cons b bs =>
      rw [hsb] at hy
      obtain ⟨bi, -, hy⟩ := List.mem_flatMap.mp hy
      have h6 := (emit_leaf_fields law path ch se an at_ cn (some lp.1)
        (some (bi.1 + 1)) bi.2 _ y hy).2.2.2.2.2
      rw [isLeafGran_not_node h6] at hny
      simp at hny
  · cases hsb : split_bullets lp.2 with
    | nil => exact emit_leaf_tagSep law path ch se an at_ cn (some lp.1) none lp.2 _
    | cons b bs =>
      refine List.pairwise_flatMap.mpr ⟨?_, ?_⟩
      · intro bi _
        exact emit_leaf_tagSep law path ch se an at_ cn (some lp.1) (some (bi.1 + 1)) bi.2 _
      · refine (enum_pairwise_fst (b :: bs)).imp_of_mem ?_
        intro bi bj hbi hbj hlt x hx y hy
        obtain ⟨-, -, -, -, hbx, hlx⟩ :=
          emit_leaf_fields law path ch se an at_ cn (some lp.1) (some (bi.1 + 1)) bi.2 _ x hx
        obtain ⟨-, -, -, -, hby, -⟩ :=
          emit_leaf_fields law path ch se an at_ cn (some lp.1) (some (bj.1 + 1)) bj.2 _ y hy
        refine ⟨fun _ _ ht => ?_, fun hnx _ => ?_⟩
        · have hb := congrArg (fun t => t.2.2.2.1) ht
          simp only [leafTag] at hb
          rw [hbx, hby] at hb
          exact absurd (Option.some.inj hb) (by omega)
        · rw [isLeafGran_not_node hlx] at hnx
          simp at hnx

/-- Every item below one clause node records the clause position in its
fields, and its identifier renders its own tag. -/
theorem clauseItems_mem_spec
    (law path ch se an at_ aid : Str) (cb : Option ℤ × Str)
    (haid : aid = pathStem path ++ "_D".data ++ an) :
    ∀ it ∈ clauseItems law path ch se an at_ aid cb,
      it.article_no = an ∧
      (isLeafGran it.granularity = true → leafOK path it ∧ it.clause_no = cb.1) ∧
      (isNodeGran it.granularity = true →
        nodeOK path it ∧ ∃ pp, (nodeTag it).2 = some (cb.1, pp)) := by
  obtain ⟨ck, ctext⟩ := cb
  subst haid
  intro it hmem
  simp only [clauseItems, List.mem_cons] at hmem
  cases hmem with
  | inl h =>
    subst h
    refine ⟨rfl, fun habs => absurd habs (by simp only [Bool.not_eq_true]; decide),
      fun _ => ⟨?_, none, ?_⟩⟩
    · simp only [nodeOK, nodeTag]
      rw [if_neg (show ¬(("clause_node".data : Str) = "article_root".data) by decide)]
      cases ck with
      | some n => simp [nodeIdOf, kNodeStr, pPartStr, List.append_assoc]
      | none => simp [nodeIdOf, kNodeStr, pPartStr, List.append_assoc]
    · simp only [nodeTag]
      rw [if_neg (show ¬(("clause_node".data : Str) = "article_root".data) by decide)]
  | inr h =>
    cases hsp : split_points ctext with
    | cons p ps =>
      rw [hsp] at h
      obtain ⟨lp, hlp, h⟩ := List.mem_flatMap.mp h
      obtain ⟨h1, h2, h3⟩ := pointItems_mem_spec law path ch se an at_ _ _ ck lp
        (by cases ck <;> rfl) it h
      exact ⟨h1, fun hl => ⟨(h2 hl).1, (h2 hl).2.1⟩,
        fun hn => ⟨(h3 hn).1, some lp.1, (h3 hn).2⟩⟩
    | nil =>
      rw [hsp] at h
      cases hck : ck with
      | some n =>
        rw [hck] at h
        obtain ⟨h1, h2, h3, h4, h5, h6⟩ :=
          emit_leaf_fields law path ch se an at_ (some n) none none ctext _ it h
        refine ⟨h2, fun _ => ⟨?_, h3⟩, fun hn => ?_⟩
        · rw [← h2, ← h3, ← h4, ← h5] at h1
          exact h1
        · rw [isLeafGran_not_node h6] at hn
          simp at hn
      | none =>
        rw [hck] at h
        replace h : it ∈ (if strip ctext = [] then ([] : List Item)
            else emit_leaf law path ch se an at_ none none none ctext
              [("article_id".data, pathStem path ++ "_D".data ++ an)]) := h
        split at h
        · simp at h
        · obtain ⟨h1, h2, h3, h4, h5, h6⟩ :=
            emit_leaf_fields law path ch se an at_ none none none ctext _ it h
          refine ⟨h2, fun _ => ⟨?_, h3⟩, fun hn => ?_⟩
          · rw [← h2, ← h3, ← h4, ← h5] at h1
            exact h1
          · rw [isLeafGran_not_node h6] at hn
            simp at hn

/-- The items below one clause node are pairwise separated, provided the
clause's point letters are distinct. -/
theorem clauseItems_tagSep
    (law path ch se an at_ aid : Str) (cb : Option ℤ × Str)
    (haid : aid = pathStem path ++ "_D".data ++ an)
    (hpt : (split_points cb.2).Pairwise (fun x y => x.1 ≠ y.1)) :
    (clauseItems law path ch se an at_ aid cb).Pairwise tagSep := by
  obtain ⟨ck, ctext⟩ := cb
  subst haid
  simp only [clauseItems, List.pairwise_cons]
  constructor
  · intro y hy
    refine ⟨fun habs _ => absurd habs (by simp only [Bool.not_eq_true]; decide),
      fun _ hny ht => ?_⟩
    have h2 := congrArg Prod.snd ht
    cases hsp : split_points ctext with
    | cons p ps =>
      rw [hsp] at hy
      obtain ⟨lp, hlp, hy⟩ := List.mem_flatMap.mp hy
      obtain ⟨-, -, h3⟩ := pointItems_mem_spec law path ch se an at_ _ _ ck lp
        (by cases ck <;> rfl) y hy
      rw [(h3 hny).2] at h2
      simp only [nodeTag] at h2
      rw [if_neg (show ¬(("clause_node".data : Str) = "article_root".data) by decide)] at h2
      simp at h2
    | nil =>
      rw [hsp] at hy
      cases hck : ck with
      | some n =>
        rw [hck] at hy
        have h6 := (emit_leaf_fields law path ch se an at_ (some n) none none
          ctext _ y hy).2.2.2.2.2
        rw [isLeafGran_not_node h6] at hny
        simp at hny
      | none =>
        rw [hck] at hy
        replace hy : y ∈ (if strip ctext = [] then ([] : List Item)
            else emit_leaf law path ch se an at_ none none none ctext
              [("article_id".data, pathStem path ++ "_D".data ++ an)]) := hy
        split at hy
        · simp at hy
        · have h6 := (emit_leaf_fields law path ch se an at_ none none none
            ctext _ y hy).2.2.2.2.2
          rw [isLeafGran_not_node h6] at hny
          simp at hny
  · cases hsp : split_points ctext with
    | cons p ps =>
      rw [hsp] at hpt
      refine List.pairwise_flatMap.mpr ⟨?_, ?_⟩
      · intro lp _
        exact pointItems_tagSep law path ch se an at_ _ _ ck lp
      · refine hpt.imp_of_mem ?_
        intro lp lq hlp hlq hne x hx y hy
        obtain ⟨-, hlx, hnx⟩ := pointItems_mem_spec law path ch se an at_ _ _ ck lp
          (by cases ck <;> rfl) x hx
        obtain ⟨-, hly, hny⟩ := pointItems_mem_spec law path ch se an at_ _ _ ck lq
          (by cases ck <;> rfl) y hy
        refine ⟨fun ha hb ht => ?_, fun ha hb ht => ?_⟩
        · have hp := congrArg (fun t => t.2.2.1) ht
          simp only [leafTag] at hp
          rw [(hlx ha).2.2, (hly hb).2.2] at hp
          exact hne (Option.some.inj hp)
        · have hp := congrArg Prod.snd ht
          rw [(hnx ha).2, (hny hb).2] at hp
          simp at hp
          exact hne hp
    | nil =>
      cases hck : ck with
      | some n =>
        exact emit_leaf_tagSep law path ch se an at_ (some n) none none ctext _
      | none =>
        show (if strip ctext = [] then ([] : List Item)
            else emit_leaf law path ch se an at_ none none none ctext
              [("article_id".data, pathStem path ++ "_D".data ++ an)]).Pairwise tagSep
        split_ifs with hs
        · exact List.Pairwise.nil
        · exact emit_leaf_tagSep law path ch se an at_ none none none ctext _

/-- Every item below one article root records the article position in its
fields, with nonnegative clause keys, and renders its identifier from its
own tag. -/
theorem articleItems_mem_spec (law path : Str) (art : Article) :
    ∀ it ∈ articleItems law path art,
      it.article_no = art.article_no ∧
      (isLeafGran it.granularity = true →
        leafOK path it ∧ ∀ n, it.clause_no = some n → 0 ≤ n) ∧
      (isNodeGran it.granularity = true →
        nodeOK path it ∧
          ∀ q, (nodeTag it).2 = some q → ∀ n, q.1 = some n → 0 ≤ n) := by
  intro it hmem
  simp only [articleItems, List.mem_cons] at hmem
  cases hmem with
  | inl h =>
    subst h
    refine ⟨rfl, fun habs => absurd habs (by simp only [Bool.not_eq_true]; decide),
      fun _ => ⟨?_, ?_⟩⟩
    · simp only [nodeOK, nodeTag]
      simp [nodeIdOf]
    · intro q hq
      simp only [nodeTag] at hq
      simp only [if_true] at hq
      exact absurd hq (by simp)
  | inr h =>
    obtain ⟨cb, hcb, h⟩ := List.mem_flatMap.mp h
    obtain ⟨h1, h2, h3⟩ := clauseItems_mem_spec law path art.chapter art.sectionLabel
      art.article_no art.article_title _ cb rfl it h
    refine ⟨h1, fun hl => ⟨(h2 hl).1, ?_⟩, fun hn => ⟨(h3 hn).1, ?_⟩⟩
    · intro n hcn
      rw [(h2 hl).2] at hcn
      exact split_clauses_key_nonneg _ cb hcb n hcn
    · intro q hq n hqn
      obtain ⟨pp, htag⟩ := (h3 hn).2
      rw [htag] at hq
      obtain rfl := Option.some.inj hq
      exact split_clauses_key_nonneg _ cb hcb n hqn

/-- The items below one article root are pairwise separated, provided the
clause keys and the point letters within each clause are distinct. -/
theorem articleItems_tagSep (law path : Str) (art : Article)
    (hcl : (split_clauses art.article_text).Pairwise (fun x y => x.1 ≠ y.1))
    (hpt : ∀ cb ∈ split_clauses art.article_text,
      (split_points cb.2).Pairwise (fun x y => x.1 ≠ y.1)) :
    (articleItems law path art).Pairwise tagSep := by
  simp only [articleItems, List.pairwise_cons]
  constructor
  · intro y hy
    refine ⟨fun habs _ => absurd habs (by simp only [Bool.not_eq_true]; decide),
      fun _ hny ht => ?_⟩
    obtain ⟨cb, hcb, hy⟩ := List.mem_flatMap.mp hy
    obtain ⟨-, -, h3⟩ := clauseItems_mem_spec law path art.chapter art.sectionLabel
      art.article_no art.article_title _ cb rfl y hy
    obtain ⟨pp, htag⟩ := (h3 hny).2
    have h2 := congrArg Prod.snd ht
    rw [htag] at h2
    simp only [nodeTag] at h2
    simp only [if_true] at h2
    exact absurd h2 (by simp)
  · refine List.pairwise_flatMap.mpr ⟨?_, ?_⟩
    · intro cb hcb
      exact clauseItems_tagSep law path art.chapter art.sectionLabel art.article_no
        art.article_title _ cb rfl (hpt cb hcb)
    · refine hcl.imp_of_mem ?_
      intro cb cb' hcb hcb' hne x hx y hy
      obtain ⟨-, h2x, h3x⟩ := clauseItems_mem_spec law path art.chapter art.sectionLabel
        art.article_no art.article_title _ cb rfl x hx
      obtain ⟨-, h2y, h3y⟩ := clauseItems_mem_spec law path art.chapter art.sectionLabel
        art.article_no art.article_title _ cb' rfl y hy
      refine ⟨fun ha hb ht => ?_, fun ha hb ht => ?_⟩
      · have hp := congrArg (fun t => t.2.1) ht
        simp only [leafTag] at hp
        rw [(h2x ha).2, (h2y hb).2] at hp
        exact hne hp
      · obtain ⟨pp, htx⟩ := (h3x ha).2
        obtain ⟨pp', hty⟩ := (h3y hb).2
        have hp := congrArg Prod.snd ht
        rw [htx, hty] at hp
        have hpq : (cb.1, pp) = (cb'.1, pp') := Option.some.inj hp
        have hk := congrArg Prod.fst hpq
        exact hne hk

/-- Every item emitted for a source document renders its identifier from
its own structural tag, with digit article numbers and nonnegative clause
keys. -/
theorem process_one_mem_spec (law path raw : Str) :
    ∀ it ∈ process_one law path raw,
      (isLeafGran it.granularity = true →
        leafOK path it ∧ (∀ c ∈ it.article_no, isDigitC c = true) ∧
          ∀ n, it.clause_no = some n → 0 ≤ n) ∧
      (isNodeGran it.granularity = true →
        nodeOK path it ∧ (∀ c ∈ it.article_no, isDigitC c = true) ∧
          ∀ q, (nodeTag it).2 = some q → ∀ n, q.1 = some n → 0 ≤ n) := by
  intro it hmem
  obtain ⟨art, hart, hmem⟩ := List.mem_flatMap.mp hmem
  obtain ⟨h1, h2, h3⟩ := articleItems_mem_spec law path art it hmem
  have hdig := (parse_articles_article_no _ art hart).2
  rw [← h1] at hdig
  exact ⟨fun hl => ⟨(h2 hl).1, hdig, (h2 hl).2⟩,
    fun hn => ⟨(h3 hn).1, hdig, (h3 hn).2⟩⟩

/-- All items emitted for a source document are pairwise separated, under
distinct article numbers, clause keys and point letters. -/
theorem process_one_tagSep (law path raw : Str)
    (hart : (parse_articles (normalize_text raw)).Pairwise
      (fun a b => a.article_no ≠ b.article_no))
    (hcl : ∀ art ∈ parse_articles (normalize_text raw),
      (split_clauses art.article_text).Pairwise (fun x y => x.1 ≠ y.1))
    (hpt : ∀ art ∈ parse_articles (normalize_text raw),
      ∀ cb ∈ split_clauses art.article_text,
        (split_points cb.2).Pairwise (fun x y => x.1 ≠ y.1)) :
    (process_one law path raw).Pairwise tagSep := by
  refine List.pairwise_flatMap.mpr ⟨?_, ?_⟩
  · intro art hart2
    exact articleItems_tagSep law path art (hcl art hart2) (hpt art hart2)
  · refine hart.imp_of_mem ?_
    intro a b ha hb hne x hx y hy
    have h1x := (articleItems_mem_spec law path a x hx).1
    have h1y := (articleItems_mem_spec law path b y hy).1
    refine ⟨fun _ _ ht => ?_, fun _ _ ht => ?_⟩
    · have hp := congrArg Prod.fst ht
      simp only [leafTag] at hp
      rw [h1x, h1y] at hp
      exact hne hp
    · have hp := congrArg Prod.fst ht
      simp only [nodeTag] at hp
      rw [h1x, h1y] at hp
      exact hne hp

set_option maxHeartbeats 1000000 in
/-- **C1, amended.**  The claim that all items emitted by `process_one`
for one source file have pairwise-distinct identifiers is false as stated
(see `C1_counterexample`: a clause leaf shares its identifier with its
clause node, and a preamble leaf with the article root).  What holds is:
whenever the parsed articles have pairwise-distinct article numbers, the
clause segments of each article have pairwise-distinct keys, and the
point segments of each clause have pairwise-distinct letters, the leaf
chunks (including window-split chunks) have pairwise-distinct identifiers
among themselves, and the structural nodes (article roots, clause nodes,
point nodes) have pairwise-distinct identifiers among themselves — but a
leaf's identifier may coincide with a node's. -/
theorem process_one_id_uniqueness (law path raw : Str)
    (hart : (parse_articles (normalize_text raw)).Pairwise
      (fun a b => a.article_no ≠ b.article_no))
    (hcl : ∀ art ∈ parse_articles (normalize_text raw),
      (split_clauses art.article_text).Pairwise (fun x y => x.1 ≠ y.1))
    (hpt : ∀ art ∈ parse_articles (normalize_text raw),
      ∀ cb ∈ split_clauses art.article_text,
        (split_points cb.2).Pairwise (fun x y => x.1 ≠ y.1)) :
    (((process_one law path raw).filter
        (fun it => isLeafGran it.granularity)).map Item.id).Pairwise
      (fun a b => a ≠ b) ∧
    (((process_one law path raw).filter
        (fun it => isNodeGran it.granularity)).map Item.id).Pairwise
      (fun a b => a ≠ b) := by
  have hsep := process_one_tagSep law path raw hart hcl hpt
  constructor
  · refine List.pairwise_map.mpr ?_
    refine List.Pairwise.imp_of_mem ?_
      (hsep.filter (fun it => isLeafGran it.granularity))
    intro x y hx hy hxy hid
    rw [List.mem_filter] at hx hy
    obtain ⟨hokx, hdx, hkx⟩ := (process_one_mem_spec law path raw x hx.1).1 hx.2
    obtain ⟨hoky, hdy, hky⟩ := (process_one_mem_spec law path raw y hy.1).1 hy.2
    replace hokx : x.id = leafIdOf (pathStem path) x.article_no x.clause_no
      x.point x.bullet_idx x.window_seq := hokx
    replace hoky : y.id = leafIdOf (pathStem path) y.article_no y.clause_no
      y.point y.bullet_idx y.window_seq := hoky
    rw [hokx, hoky] at hid
    obtain ⟨h1, h2, h3, h4, h5⟩ := leafIdOf_inj hdx hdy hkx hky hid
    exact hxy.1 hx.2 hy.2 (by simp [leafTag, h1, h2, h3, h4, h5])
  · refine List.pairwise_map.mpr ?_
    refine List.Pairwise.imp_of_mem ?_
      (hsep.filter (fun it => isNodeGran it.granularity))
    intro x y hx hy hxy hid
    rw [List.mem_filter] at hx hy
    obtain ⟨hokx, hdx, hkx⟩ := (process_one_mem_spec law path raw x hx.1).2 hx.2
    obtain ⟨hoky, hdy, hky⟩ := (process_one_mem_spec law path raw y hy.1).2 hy.2
    replace hokx : x.id = nodeIdOf (pathStem path) x.article_no (nodeTag x).2 := hokx
    replace hoky : y.id = nodeIdOf (pathStem path) y.article_no (nodeTag y).2 := hoky
    rw [hokx, hoky] at hid
    obtain ⟨h1, h2⟩ := nodeIdOf_inj hdx hdy hkx hky hid
    exact hxy.2 hx.2 hy.2 (Prod.ext h1 h2)

set_option maxRecDepth 8000 in
set_option maxHeartbeats 2000000 in
/-- **C1, counterexample.**  On the two-line document `ceDoc` (one
article, one numbered clause, no points), `process_one` emits the clause
leaf with the same identifier as the clause node, so the emitted items'
identifiers are not pairwise distinct within this source file. -/
theorem C1_counterexample :
    ¬ ((process_one "L".data "x.txt".data ceDoc).map Item.id).Pairwise
      (fun a b => a ≠ b) := by decide

set_option maxRecDepth 8000 in
set_option maxHeartbeats 4000000 in
/-- Witness for `process_one_id_uniqueness` at the concrete document
`ceDoc`: its hypotheses hold and the leaf and node identifier families
are each duplicate-free. -/
theorem process_one_id_uniqueness_witness :
    ((parse_articles (normalize_text ceDoc)).Pairwise
      (fun a b => a.article_no ≠ b.article_no)) ∧
    (∀ art ∈ parse_articles (normalize_text ceDoc),
      (split_clauses art.article_text).Pairwise (fun x y => x.1 ≠ y.1)) ∧
    (∀ art ∈ parse_articles (normalize_text ceDoc),
      ∀ cb ∈ split_clauses art.article_text,
        (split_points cb.2).Pairwise (fun x y => x.1 ≠ y.1)) ∧
    ((((process_one "L".data "x.txt".data ceDoc).filter
        (fun it => isLeafGran it.granularity)).map Item.id).Pairwise
      (fun a b => a ≠ b) ∧
     (((process_one "L".data "x.txt".data ceDoc).filter
        (fun it => isNodeGran it.granularity)).map Item.id).Pairwise
      (fun a b => a ≠ b)) :=
  ⟨by decide, by decide, by decide,
    process_one_id_uniqueness "L".data "x.txt".data ceDoc
      (by decide) (by decide) (by decide)⟩

end LawQA
